import Mathlib

/-!
# Verification of `absqrtc` — exact arithmetic on `a + b·√c`

Shallow embedding of the Python package `absqrtc` (mature revision
`src/absqrtc/__init__.py`, plus the older single-file revision
`src/absqrtc.py` for the refinement claim).  Rationals are embedded as
Lean's `ℚ` (Python `Fraction` keeps the same normalized-form invariants:
lowest terms, positive denominator).  Python exceptions are embedded as an
explicit `Except` error type.
-/

instance {ε α : Type} [DecidableEq ε] [DecidableEq α] : DecidableEq (Except ε α) := fun x y =>
  match x, y with
  | .ok a, .ok b =>
    match decEq a b with
    | .isTrue h => .isTrue (congrArg Except.ok h)
    | .isFalse h => .isFalse (fun hh => h (Except.ok.inj hh))
  | .error a, .error b =>
    match decEq a b with
    | .isTrue h => .isTrue (congrArg Except.error h)
    | .isFalse h => .isFalse (fun hh => h (Except.error.inj hh))
  | .ok _, .error _ => .isFalse (fun hh => Except.noConfusion hh)
  | .error _, .ok _ => .isFalse (fun hh => Except.noConfusion hh)

/-- Error kinds raised by the library (`ValueError` / `ZeroDivisionError`
with distinguishable messages; the incompatible-radical error reports both
radicands). -/
inductive PyError where
  | invalidRadical (c : ℚ)
  | incompatibleRadical (r1 r2 : ℤ)
  | divisionByZero
  deriving DecidableEq, Repr

/-- The canonical triple stored by an `ABSqrtC` instance: `_add`,
`_factor` (exact rationals) and `_radical` (a Python `int`). -/
structure ABSqrtC where
  add : ℚ
  factor : ℚ
  radical : ℤ
  deriving DecidableEq, Repr

/-- Inner loop of `_get_square_factors` (mature revision, lines 382–384):
`while not n_int % square: square_factor *= i; n_int //= square`.
The guard carries the two facts that hold at every call site (`i` comes
from `count(2)`, and `n_int` starts positive and stays positive) and that
the Python loop itself needs in order to terminate. -/
def divOutSquares (i : ℕ) (sf : ℚ) (m : ℤ) : ℚ × ℤ :=
  if _h : 2 ≤ i ∧ 0 < m ∧ ((i : ℤ) * i) ∣ m then
    divOutSquares i (sf * i) (m / ((i : ℤ) * i))
  else (sf, m)
termination_by m.natAbs
decreasing_by
  rcases _h with ⟨hi, hm, d, hd⟩
  have h4 : (4:ℤ) ≤ (i:ℤ) * i := by
    have : (2:ℤ) ≤ (i:ℤ) := by exact_mod_cast hi
    nlinarith
  have hlt : m / ((i:ℤ) * i) < m := by
    apply Int.ediv_lt_of_lt_mul (by linarith)
    nlinarith
  have hpos : 0 ≤ m / ((i:ℤ) * i) := Int.ediv_nonneg (by linarith) (by linarith)
  omega

/-- Outer loop of `_get_square_factors` (lines 378–384):
`for i in count(2): square = i*i; if square > n: break; …`.  The break
compares the square against the original fraction `n`, which is never
reassigned; the `2 ≤ i` guard records where the iteration starts. -/
def sfLoop (n : ℚ) (i : ℕ) (st : ℚ × ℤ) : ℚ × ℤ :=
  if h : 2 ≤ i ∧ ((i : ℚ) * i) ≤ n then
    sfLoop n (i + 1) (divOutSquares i st.1 st.2)
  else st
termination_by n.num.toNat + 2 - i
decreasing_by
  rcases h with ⟨hi, hn⟩
  have h1 : (i : ℚ) ≤ (i : ℚ) * i := by
    nlinarith [show (2:ℚ) ≤ (i:ℚ) by exact_mod_cast hi]
  have h2 : (i : ℚ) ≤ (n.num : ℚ) := by
    calc (i:ℚ) ≤ n := le_trans h1 hn
    _ = (n.num : ℚ) / (n.den : ℚ) := (Rat.num_div_den n).symm
    _ ≤ (n.num : ℚ) := by
        apply div_le_self
        · have h0 : (0:ℚ) < n := lt_of_lt_of_le (by positivity) (le_trans h1 hn)
          exact_mod_cast le_of_lt (Rat.num_pos.mpr h0)
        · exact_mod_cast n.pos
  have h3 : i ≤ n.num.toNat := by
    have hnum : (i : ℤ) ≤ n.num := by exact_mod_cast h2
    omega
  omega

/-- `_get_square_factors(n)` (mature revision, lines 371–386): separate
all square factors of the fraction `n`, starting from
`square_factor = F(1, n.denominator)` and `n_int = n.numerator * n.denominator`. -/
def _get_square_factors (n : ℚ) : ℚ × ℤ :=
  sfLoop n 2 (1 / (n.den : ℚ), n.num * n.den)

/-- `ABSqrtC.__new__` on the explicit three-argument form
`ABSqrtC(a, b, c)` (lines 23–60).  Note the faithful quirks:
`frac_c` is forced to `1` whenever the factor argument is zero (line 40),
the negativity check runs after that replacement (line 42), and a zero
radicand is replaced by `1` (lines 44–45) before square factors are
extracted. -/
def ABSqrtC.make (a b c : ℚ) : Except PyError ABSqrtC :=
  let fracC : ℚ := if b = 0 then 1 else c
  if fracC < 0 then .error (.invalidRadical fracC)
  else
    let fracC' : ℚ := if fracC = 0 then 1 else fracC
    let p := _get_square_factors fracC'
    if p.2 = 1 then .ok ⟨a + b * p.1, 0, 1⟩
    else .ok ⟨a, b * p.1, p.2⟩

/-- `ABSqrtC.get_common_radical` (lines 356–368). -/
def ABSqrtC.getCommonRadical (x y : ABSqrtC) : Except PyError ℤ :=
  if x.radical = y.radical then .ok x.radical
  else if x.radical = 1 then .ok y.radical
  else if y.radical = 1 then .ok x.radical
  else .error (.incompatibleRadical x.radical y.radical)

/-- `ABSqrtC.__eq__` restricted to two `ABSqrtC` operands (lines 136–142):
componentwise comparison of the canonical triples. -/
def ABSqrtC.beq (x y : ABSqrtC) : Bool :=
  x.add == y.add && x.factor == y.factor && x.radical == y.radical

/-- `self._conjugate_product` as computed in `_init` (line 68):
`a * a - b * b * c`. -/
def ABSqrtC.conjugateProduct (x : ABSqrtC) : ℚ :=
  x.add * x.add - x.factor * x.factor * x.radical

/-- `ABSqrtC.__add__` on two `ABSqrtC` operands (lines 192–195). -/
def ABSqrtC.addOp (x y : ABSqrtC) : Except PyError ABSqrtC := do
  let radical ← x.getCommonRadical y
  ABSqrtC.make (x.add + y.add) (x.factor + y.factor) (radical : ℚ)

/-- `ABSqrtC.__sub__` on two `ABSqrtC` operands (lines 216–219). -/
def ABSqrtC.subOp (x y : ABSqrtC) : Except PyError ABSqrtC := do
  let radical ← x.getCommonRadical y
  ABSqrtC.make (x.add - y.add) (x.factor - y.factor) (radical : ℚ)

/-- `ABSqrtC.__mul__` on two `ABSqrtC` operands (lines 240–247). -/
def ABSqrtC.mulOp (x y : ABSqrtC) : Except PyError ABSqrtC := do
  let radical ← x.getCommonRadical y
  ABSqrtC.make (x.add * y.add + x.factor * y.factor * radical)
    (x.add * y.factor + x.factor * y.add) (radical : ℚ)

/-- `ABSqrtC.__truediv__` on two `ABSqrtC` operands (lines 266–274).  The
common radical is computed first; then Python's exact `Fraction` division
by `o._conjugate_product` raises `ZeroDivisionError` when that norm is
zero, embedded here as an explicit test. -/
def ABSqrtC.divOp (x y : ABSqrtC) : Except PyError ABSqrtC := do
  let radical ← x.getCommonRadical y
  if y.conjugateProduct = 0 then .error .divisionByZero
  else
    ABSqrtC.make ((x.add * y.add - x.factor * y.factor * radical) / y.conjugateProduct)
      ((x.factor * y.add - x.add * y.factor) / y.conjugateProduct) (radical : ℚ)

/-- `ABSqrtC.__neg__` (lines 314–315). -/
def ABSqrtC.negOp (x : ABSqrtC) : Except PyError ABSqrtC :=
  ABSqrtC.make (-x.add) (-x.factor) (x.radical : ℚ)

/-- `ABSqrtC.conjugate` (lines 95–100). -/
def ABSqrtC.conjugate (x : ABSqrtC) : Except PyError ABSqrtC :=
  ABSqrtC.make x.add (-x.factor) (x.radical : ℚ)

/-- `ABSqrtC.inverse` (lines 102–111): `ABSqrtC(a/N, -b/N, c)` where `N`
is the conjugate product; the `Fraction` divisions raise
`ZeroDivisionError` when `N == 0`. -/
def ABSqrtC.inverse (x : ABSqrtC) : Except PyError ABSqrtC :=
  if x.conjugateProduct = 0 then .error .divisionByZero
  else
    ABSqrtC.make (x.add / x.conjugateProduct) (-x.factor / x.conjugateProduct)
      (x.radical : ℚ)

/-- Even-index accumulator of `ABSqrtC.__pow__` (lines 295–308): the loop
`for i in range(0, o, 2)` adds `comb(o, i) * a**(o-i) * b**i * c**(i//2)`
for each even `i = 2k < o`, and after the loop
`if not o % 2: add += b**o * c**(o//2)`. -/
def powAddSum (a b : ℚ) (c : ℤ) (o : ℕ) : ℚ :=
  (∑ k ∈ Finset.range ((o + 1) / 2),
      (o.choose (2 * k) : ℚ) * a ^ (o - 2 * k) * b ^ (2 * k) * (c : ℚ) ^ k) +
    (if o % 2 = 0 then b ^ o * (c : ℚ) ^ (o / 2) else 0)

/-- Odd-index accumulator of `ABSqrtC.__pow__`: the same loop adds
`comb(o, i+1) * a**(o-i-1) * b**(i+1) * c**((i+1)//2)` for the odd index
`i + 1 = 2k + 1`. -/
def powFactorSum (a b : ℚ) (c : ℤ) (o : ℕ) : ℚ :=
  ∑ k ∈ Finset.range ((o + 1) / 2),
    (o.choose (2 * k + 1) : ℚ) * a ^ (o - (2 * k + 1)) * b ^ (2 * k + 1) * (c : ℚ) ^ k

/-- `ABSqrtC.__pow__` for a non-negative integer exponent (lines 295–308):
binomial expansion of `(a + b·√c)^o`, split into its rational and radical
parts, then re-normalized through the constructor with the operand's own
radical. -/
def ABSqrtC.powOp (x : ABSqrtC) (o : ℕ) : Except PyError ABSqrtC :=
  ABSqrtC.make (powAddSum x.add x.factor x.radical o)
    (powFactorSum x.add x.factor x.radical o) (x.radical : ℚ)

/-- The real number denoted by a constructor argument triple
`(a, b, c)` — the algebraic number `a + b·√c` (spec §1). -/
noncomputable def sem3 (a b : ℚ) (c : ℤ) : ℝ := (a : ℝ) + (b : ℝ) * Real.sqrt (c : ℝ)

/-- The real number represented by a stored canonical triple. -/
noncomputable def ABSqrtC.sem (x : ABSqrtC) : ℝ := sem3 x.add x.factor x.radical

/-- `str(Fraction)` in Python: `"p"` when the denominator is `1`, else
`"p/q"`; a negative sign rides on the numerator. -/
def pyFracStr (q : ℚ) : String :=
  if q.den = 1 then toString q.num else toString q.num ++ "/" ++ toString q.den

/-- `ABSqrtC.__str__` (mature revision, lines 116–128): render `add`
alone when the factor is zero; otherwise `add`, a spaced sign taken from
the factor's sign (no leading term and an unspaced `-` when `add` is
zero), the absolute factor with `" * "` unless it is `1`, then `√` and
the radical. -/
def ABSqrtC.str (x : ABSqrtC) : String :=
  if x.factor = 0 then pyFracStr x.add
  else
    (if x.add ≠ 0 then
        pyFracStr x.add ++ (if 0 < x.factor then " + " else " - ")
      else
        (if 0 < x.factor then "" else "-")) ++
      (if |x.factor| ≠ 1 then pyFracStr |x.factor| ++ " * " else "") ++
      "√" ++ toString x.radical

/-- `_get_square_factors` of the older revision (`src/absqrtc.py`,
lines 244–255): `for i in range(2, int(n ** 0.25)):` with a single
`if not n % (square := i * i): square_factor *= i; n //= square` per
candidate.  The float bound `int(n ** 0.25)` is embedded as the integer
fourth root `Nat.sqrt (Nat.sqrt n.toNat)` (the two agree on every input
considered here; the fourth root of the inputs below is nowhere near an
integer boundary). -/
def old_get_square_factors (n : ℤ) : ℤ × ℤ :=
  (List.range' 2 (Nat.sqrt (Nat.sqrt n.toNat) - 2)).foldl
    (fun (st : ℤ × ℤ) (i : ℕ) =>
      if ((i : ℤ) * i) ∣ st.2 then (st.1 * i, st.2 / ((i : ℤ) * i)) else st)
    (1, n)

/-- The value `1` — canonical triple `(1, 0, 1)`. -/
def ABSqrtC.one : ABSqrtC := ⟨1, 0, 1⟩

/-- The spec side of claim C8: the `n`-fold repeated product of `x` with
itself, with the empty product being the value `1`. -/
def ABSqrtC.iterMul (x : ABSqrtC) : ℕ → Except PyError ABSqrtC
  | 0 => .ok ABSqrtC.one
  | n + 1 => ABSqrtC.iterMul x n >>= fun v => v.mulOp x

/-- Reference recursion for the binomial accumulators of `__pow__`:
the pair `(A n, B n)` with `A 0 = 1`, `B 0 = 0` and
`(A, B) ↦ (A·a + B·b·c, A·b + B·a)`, i.e. the coefficients of
`(a + b·√c)^n` over `1, √c`. -/
def powPair (a b : ℚ) (c : ℤ) : ℕ → ℚ × ℚ
  | 0 => (1, 0)
  | n + 1 =>
    ((powPair a b c n).1 * a + (powPair a b c n).2 * b * c,
      (powPair a b c n).1 * b + (powPair a b c n).2 * a)

theorem except_bind_ok {ε α β : Type} (a : α) (f : α → Except ε β) :
    (Except.ok a >>= f : Except ε β) = f a := rfl

theorem except_bind_err {ε α β : Type} (e : ε) (f : α → Except ε β) :
    (Except.error e >>= f : Except ε β) = Except.error e := rfl

-- Branch equations for the two loops, used both for evaluation on
-- concrete inputs and for the structural induction proofs below.

theorem divOut_step {i : ℕ} {sf : ℚ} {m : ℤ} (h : 2 ≤ i ∧ 0 < m ∧ ((i : ℤ) * i) ∣ m) :
    divOutSquares i sf m = divOutSquares i (sf * i) (m / ((i : ℤ) * i)) := by
  rw [divOutSquares]; exact dif_pos h

theorem divOut_stop {i : ℕ} {sf : ℚ} {m : ℤ} (h : ¬(2 ≤ i ∧ 0 < m ∧ ((i : ℤ) * i) ∣ m)) :
    divOutSquares i sf m = (sf, m) := by
  rw [divOutSquares]; exact dif_neg h

theorem sfLoop_step {n : ℚ} {i : ℕ} {st : ℚ × ℤ} (h : 2 ≤ i ∧ ((i : ℚ) * i) ≤ n) :
    sfLoop n i st = sfLoop n (i + 1) (divOutSquares i st.1 st.2) := by
  rw [sfLoop]; exact dif_pos h

theorem sfLoop_stop {n : ℚ} {i : ℕ} {st : ℚ × ℤ} (h : ¬(2 ≤ i ∧ ((i : ℚ) * i) ≤ n)) :
    sfLoop n i st = st := by
  rw [sfLoop]; exact dif_neg h

-- Sanity checks against the repository's own test suite (`test_reduction`,
-- `test_add`, `test_mul`, `test_truediv`).
example : ABSqrtC.make 0 1 75 = .ok ⟨0, 5, 3⟩ := by
  norm_num [ABSqrtC.make, _get_square_factors, sfLoop_step, sfLoop_stop, divOut_step, divOut_stop]
example : ABSqrtC.make 3 (-5) 98 = .ok ⟨3, -35, 2⟩ := by
  norm_num [ABSqrtC.make, _get_square_factors, sfLoop_step, sfLoop_stop, divOut_step, divOut_stop]
example : ABSqrtC.make (-5) 3 9 = .ok ⟨4, 0, 1⟩ := by
  norm_num [ABSqrtC.make, _get_square_factors, sfLoop_step, sfLoop_stop, divOut_step, divOut_stop]
example : ABSqrtC.make (-3) 0 200 = .ok ⟨-3, 0, 1⟩ := by
  norm_num [ABSqrtC.make, _get_square_factors, sfLoop_step, sfLoop_stop, divOut_step, divOut_stop]
example : ABSqrtC.addOp ⟨3, -5, 7⟩ ⟨3, 5, 11⟩ = .error (.incompatibleRadical 7 11) := by
  norm_num [ABSqrtC.addOp, ABSqrtC.getCommonRadical, except_bind_ok, except_bind_err]
example : ABSqrtC.addOp ⟨3, -5, 7⟩ ⟨3, 5, 7⟩ = .ok ⟨6, 0, 1⟩ := by
  norm_num [ABSqrtC.addOp, ABSqrtC.getCommonRadical, except_bind_ok, except_bind_err, ABSqrtC.make,
    _get_square_factors, sfLoop_step, sfLoop_stop, divOut_step, divOut_stop]
example : ABSqrtC.divOp ⟨3, -5, 7⟩ ⟨2, 10, 7⟩ = .ok ⟨-89/174, 5/87, 7⟩ := by
  norm_num [ABSqrtC.divOp, ABSqrtC.getCommonRadical, ABSqrtC.conjugateProduct, except_bind_ok, except_bind_err,
    ABSqrtC.make, _get_square_factors, sfLoop_step, sfLoop_stop, divOut_step, divOut_stop]

-- ## Invariants of the square-factor extraction loops

theorem divOut_dvd (i : ℕ) (sf : ℚ) (m : ℤ) : (divOutSquares i sf m).2 ∣ m := by
  induction sf, m using divOutSquares.induct i with
  | case1 sf m h ih =>
    rw [divOut_step h]
    refine dvd_trans ih ?_
    obtain ⟨q, hq⟩ := h.2.2
    have hne : ((i:ℤ) * i) ≠ 0 := by
      rcases h with ⟨hi, hm, _⟩
      have : (2:ℤ) ≤ (i:ℤ) := by exact_mod_cast hi
      positivity
    rw [hq, Int.mul_ediv_cancel_left _ hne]
    exact Dvd.intro_left _ rfl
  | case2 sf m h => rw [divOut_stop h]

theorem divOut_pos (i : ℕ) (sf : ℚ) (m : ℤ) (hm : 0 < m) : 0 < (divOutSquares i sf m).2 := by
  induction sf, m using divOutSquares.induct i with
  | case1 sf m h ih =>
    rw [divOut_step h]
    refine ih ?_
    obtain ⟨q, hq⟩ := h.2.2
    have hsq : (0:ℤ) < (i:ℤ) * i := by
      have : (2:ℤ) ≤ (i:ℤ) := by exact_mod_cast h.1
      positivity
    rw [hq, Int.mul_ediv_cancel_left _ (ne_of_gt hsq)]
    have := h.2.1
    nlinarith [hq ▸ this]
  | case2 sf m h =>
    rw [divOut_stop h]; exact hm

theorem divOut_not_dvd (i : ℕ) (sf : ℚ) (m : ℤ) (hi : 2 ≤ i) (hm : 0 < m) :
    ¬ ((i : ℤ) * i) ∣ (divOutSquares i sf m).2 := by
  induction sf, m using divOutSquares.induct i with
  | case1 sf m h ih =>
    rw [divOut_step h]
    refine ih ?_
    have := divOut_pos i (sf * i) (m / ((i:ℤ) * i))
    obtain ⟨q, hq⟩ := h.2.2
    have hsq : (0:ℤ) < (i:ℤ) * i := by
      have : (2:ℤ) ≤ (i:ℤ) := by exact_mod_cast h.1
      positivity
    rw [hq, Int.mul_ediv_cancel_left _ (ne_of_gt hsq)]
    nlinarith [hq ▸ h.2.1]
  | case2 sf m h =>
    rw [divOut_stop h]
    intro hdvd
    exact h ⟨hi, hm, hdvd⟩

theorem divOut_sq_mul (i : ℕ) (sf : ℚ) (m : ℤ) :
    ((divOutSquares i sf m).1) ^ 2 * ((divOutSquares i sf m).2 : ℚ) = sf ^ 2 * (m : ℚ) := by
  induction sf, m using divOutSquares.induct i with
  | case1 sf m h ih =>
    rw [divOut_step h, ih]
    have hne : ((i:ℤ) * i) ≠ 0 := by
      have : (2:ℤ) ≤ (i:ℤ) := by exact_mod_cast h.1
      positivity
    have hcancel : m / ((i:ℤ) * i) * ((i:ℤ) * i) = m := Int.ediv_mul_cancel h.2.2
    have hq : ((m / ((i:ℤ) * i) : ℤ) : ℚ) * ((i:ℚ) * i) = (m : ℚ) := by
      exact_mod_cast congrArg (Int.cast : ℤ → ℚ) hcancel
    nlinarith [hq]
  | case2 sf m h => rw [divOut_stop h]

theorem divOut_sf_pos (i : ℕ) (sf : ℚ) (m : ℤ) (hsf : 0 < sf) :
    0 < (divOutSquares i sf m).1 := by
  induction sf, m using divOutSquares.induct i with
  | case1 sf m h ih =>
    rw [divOut_step h]
    refine ih ?_
    have h2 : (2:ℚ) ≤ (i:ℚ) := by exact_mod_cast h.1
    nlinarith [hsf]
  | case2 sf m h =>
    rw [divOut_stop h]; exact hsf

theorem sfLoop_dvd (n : ℚ) (i : ℕ) (st : ℚ × ℤ) : (sfLoop n i st).2 ∣ st.2 := by
  induction i, st using sfLoop.induct n with
  | case1 i st h ih =>
    rw [sfLoop_step h]
    exact dvd_trans ih (divOut_dvd i st.1 st.2)
  | case2 i st h => rw [sfLoop_stop h]

theorem sfLoop_pos (n : ℚ) (i : ℕ) (st : ℚ × ℤ) (hm : 0 < st.2) : 0 < (sfLoop n i st).2 := by
  induction i, st using sfLoop.induct n with
  | case1 i st h ih =>
    rw [sfLoop_step h]
    exact ih (divOut_pos i st.1 st.2 hm)
  | case2 i st h => rw [sfLoop_stop h]; exact hm

theorem sfLoop_sq_mul (n : ℚ) (i : ℕ) (st : ℚ × ℤ) :
    ((sfLoop n i st).1) ^ 2 * ((sfLoop n i st).2 : ℚ) = st.1 ^ 2 * (st.2 : ℚ) := by
  induction i, st using sfLoop.induct n with
  | case1 i st h ih =>
    rw [sfLoop_step h, ih]
    exact divOut_sq_mul i st.1 st.2
  | case2 i st h => rw [sfLoop_stop h]

theorem sfLoop_sf_pos (n : ℚ) (i : ℕ) (st : ℚ × ℤ) (hsf : 0 < st.1) :
    0 < (sfLoop n i st).1 := by
  induction i, st using sfLoop.induct n with
  | case1 i st h ih =>
    rw [sfLoop_step h]
    exact ih (divOut_sf_pos i st.1 st.2 hsf)
  | case2 i st h => rw [sfLoop_stop h]; exact hsf

theorem sfLoop_not_dvd (n : ℚ) (i : ℕ) (st : ℚ × ℤ) (hi : 2 ≤ i) (hm : 0 < st.2)
    (k : ℕ) (hk : 2 ≤ k) (hik : i ≤ k) (hkn : ((k : ℚ) * k) ≤ n) :
    ¬ ((k : ℤ) * k) ∣ (sfLoop n i st).2 := by
  induction i, st using sfLoop.induct n with
  | case1 i st h ih =>
    rw [sfLoop_step h]
    rcases Nat.eq_or_lt_of_le hik with heq | hlt
    · subst heq
      intro hdvd
      have hnd := divOut_not_dvd i st.1 st.2 hi hm
      exact hnd (dvd_trans hdvd (sfLoop_dvd n (i + 1) _))
    · exact ih (Nat.le_succ_of_le hi) (divOut_pos i st.1 st.2 hm) hlt
  | case2 i st h =>
    exfalso
    apply h
    refine ⟨hi, ?_⟩
    have hik' : (i : ℚ) ≤ (k : ℚ) := by exact_mod_cast hik
    have h0 : (0 : ℚ) ≤ (i : ℚ) := by positivity
    nlinarith [hkn]

-- ## Canonical-form predicates and the integer specification of
-- `_get_square_factors`

/-- The spec's phrasing of the squarefree invariant: no integer `k > 1`
with `k²` dividing the radical. -/
def NoSquareDiv (r : ℤ) : Prop := ∀ k : ℤ, 1 < k → ¬ (k * k ∣ r)

/-- The invariants every live `ABSqrtC` instance satisfies (spec §3):
positive radical, squarefree radical, and `factor = 0` exactly when the
radical is the sentinel `1`. -/
def ABSqrtC.Canonical (x : ABSqrtC) : Prop :=
  1 ≤ x.radical ∧ Squarefree x.radical ∧ (x.factor = 0 ↔ x.radical = 1)

theorem squarefree_of_noSquareDiv {r : ℤ} (hr : 0 < r) (h : NoSquareDiv r) : Squarefree r := by
  intro x hx
  by_contra hu
  have hx0 : x.natAbs ≠ 0 := by
    intro h0
    rw [Int.natAbs_eq_zero] at h0
    subst h0
    rw [zero_mul, zero_dvd_iff] at hx
    omega
  rcases Nat.lt_or_ge x.natAbs 2 with h1 | h1
  · apply hu
    rw [Int.isUnit_iff_natAbs_eq]
    omega
  · refine h (x.natAbs : ℤ) (by omega) ?_
    rw [Int.natAbs_mul_self']
    exact hx

theorem noSquareDiv_of_squarefree {r : ℤ} (h : Squarefree r) : NoSquareDiv r := by
  intro k hk hdvd
  have := h k hdvd
  rw [Int.isUnit_iff_natAbs_eq] at this
  omega

theorem sf_int_eq (z : ℤ) : _get_square_factors (z : ℚ) = sfLoop (z : ℚ) 2 (1, z) := by
  unfold _get_square_factors
  norm_num

theorem sf_int_spec (z : ℤ) (hz : 1 ≤ z) :
    0 < (_get_square_factors (z : ℚ)).2 ∧
    (_get_square_factors (z : ℚ)).2 ∣ z ∧
    ((_get_square_factors (z : ℚ)).1) ^ 2 * ((_get_square_factors (z : ℚ)).2 : ℚ) = (z : ℚ) ∧
    0 < (_get_square_factors (z : ℚ)).1 ∧
    NoSquareDiv (_get_square_factors (z : ℚ)).2 := by
  rw [sf_int_eq]
  have hz0 : (0 : ℤ) < z := by omega
  refine ⟨sfLoop_pos _ 2 (1, z) hz0, sfLoop_dvd _ 2 (1, z), ?_, sfLoop_sf_pos _ 2 (1, z) one_pos, ?_⟩
  · have := sfLoop_sq_mul (z : ℚ) 2 (1, z)
    simpa using this
  · intro k hk hdvd
    have hpos := sfLoop_pos (z : ℚ) 2 (1, z) hz0
    have hk2 : k * k ≤ (sfLoop (z : ℚ) 2 (1, z)).2 := Int.le_of_dvd hpos hdvd
    have hle : (sfLoop (z : ℚ) 2 (1, z)).2 ≤ z := Int.le_of_dvd hz0 (sfLoop_dvd _ 2 (1, z))
    set kn := k.toNat with hkn
    have hknk : (kn : ℤ) = k := Int.toNat_of_nonneg (by omega)
    have h2kn : 2 ≤ kn := by omega
    have hknq : ((kn : ℚ) * kn) ≤ (z : ℚ) := by
      have hzz : (k * k : ℤ) ≤ z := le_trans hk2 hle
      have hq : ((k : ℚ) * k) ≤ (z : ℚ) := by exact_mod_cast hzz
      have hqq : ((kn : ℚ)) = (k : ℚ) := by exact_mod_cast hknk
      rw [hqq]
      exact hq
    have := sfLoop_not_dvd (z : ℚ) 2 (1, z) le_rfl hz0 kn h2kn h2kn hknq
    rw [hknk] at this
    exact this hdvd

theorem sfLoop_fixed (n : ℚ) (i : ℕ) (st : ℚ × ℤ)
    (hnd : ∀ k : ℕ, 2 ≤ k → ¬ ((k : ℤ) * k) ∣ st.2) : sfLoop n i st = st := by
  induction i, st using sfLoop.induct n with
  | case1 i st h ih =>
    rw [sfLoop_step h]
    have hdo : divOutSquares i st.1 st.2 = (st.1, st.2) :=
      divOut_stop (by
        rintro ⟨hi, _, hdvd⟩
        exact hnd i hi hdvd)
    rw [hdo] at ih ⊢
    exact ih hnd
  | case2 i st h => rw [sfLoop_stop h]

theorem sf_canonical {r : ℤ} (hsq : Squarefree r) :
    _get_square_factors (r : ℚ) = (1, r) := by
  rw [sf_int_eq]
  apply sfLoop_fixed
  intro k hk hdvd
  exact noSquareDiv_of_squarefree hsq (k : ℤ) (by exact_mod_cast hk) hdvd

theorem sf_one : _get_square_factors 1 = (1, 1) := by
  have := sf_canonical (r := 1) squarefree_one
  simpa using this

-- ## Behaviour of the constructor on the cases the claims need

theorem make_b0 (a c : ℚ) : ABSqrtC.make a 0 c = .ok ⟨a, 0, 1⟩ := by
  unfold ABSqrtC.make
  norm_num [sf_one]

theorem make_eq_of_pos {b c : ℚ} (a : ℚ) (hb : b ≠ 0) (hc : 0 < c) :
    ABSqrtC.make a b c =
      (if (_get_square_factors c).2 = 1 then
        .ok ⟨a + b * (_get_square_factors c).1, 0, 1⟩
      else .ok ⟨a, b * (_get_square_factors c).1, (_get_square_factors c).2⟩) := by
  unfold ABSqrtC.make
  rw [if_neg hb, if_neg (not_lt.mpr (le_of_lt hc)), if_neg (ne_of_gt hc)]

theorem make_c0 {b : ℚ} (a : ℚ) (hb : b ≠ 0) : ABSqrtC.make a b 0 = .ok ⟨a + b, 0, 1⟩ := by
  unfold ABSqrtC.make
  rw [if_neg hb]
  norm_num [sf_one]

theorem make_neg {b c : ℚ} (a : ℚ) (hb : b ≠ 0) (hc : c < 0) :
    ABSqrtC.make a b c = .error (.invalidRadical c) := by
  unfold ABSqrtC.make
  rw [if_neg hb, if_pos hc]

theorem make_id {r : ℤ} {b : ℚ} (a : ℚ) (hb : b ≠ 0) (hr1 : 1 ≤ r) (hr : r ≠ 1)
    (hsq : Squarefree r) : ABSqrtC.make a b (r : ℚ) = .ok ⟨a, b, r⟩ := by
  rw [make_eq_of_pos a hb (by exact_mod_cast hr1 : (0:ℚ) < (r:ℚ))]
  · rw [sf_canonical hsq]
    rw [if_neg hr]
    norm_num

theorem make_r1 {b : ℚ} (a : ℚ) (hb : b ≠ 0) : ABSqrtC.make a b 1 = .ok ⟨a + b, 0, 1⟩ := by
  rw [make_eq_of_pos a hb one_pos]
  rw [show ((1:ℚ)) = ((1:ℤ):ℚ) by norm_num, sf_canonical squarefree_one]
  norm_num

theorem make_ok {c : ℚ} (a b : ℚ) (hc : 0 ≤ c) : ∃ v, ABSqrtC.make a b c = .ok v := by
  unfold ABSqrtC.make
  by_cases hb : b = 0
  · rw [if_pos hb]
    norm_num [sf_one]
  · rw [if_neg hb, if_neg (not_lt.mpr hc)]
    dsimp only
    split_ifs <;> exact ⟨_, rfl⟩

theorem make_canonical {c : ℤ} (a b : ℚ) (hc : 0 ≤ c) (v : ABSqrtC)
    (hv : ABSqrtC.make a b (c : ℚ) = .ok v) : v.Canonical := by
  by_cases hb : b = 0
  · subst hb
    rw [make_b0] at hv
    cases hv
    exact ⟨le_rfl, squarefree_one, by norm_num⟩
  · by_cases hc0 : c = 0
    · subst hc0
      rw [show ((0:ℤ):ℚ) = 0 by norm_num, make_c0 a hb] at hv
      cases hv
      exact ⟨le_rfl, squarefree_one, by norm_num⟩
    · have hc1 : (1:ℤ) ≤ c := by omega
      have hcq : (0:ℚ) < (c : ℚ) := by exact_mod_cast (by omega : (0:ℤ) < c)
      rw [make_eq_of_pos a hb hcq] at hv
      obtain ⟨hpos, hdvd, hsq, hsfpos, hnsd⟩ := sf_int_spec c hc1
      by_cases h1 : (_get_square_factors (c:ℚ)).2 = 1
      · rw [if_pos h1] at hv
        cases hv
        exact ⟨le_rfl, squarefree_one, by norm_num⟩
      · rw [if_neg h1] at hv
        cases hv
        refine ⟨by show (1:ℤ) ≤ (_get_square_factors (c:ℚ)).2; omega,
          squarefree_of_noSquareDiv hpos hnsd, ?_⟩
        constructor
        · intro hf0
          exfalso
          rcases mul_eq_zero.mp hf0 with h | h
          · exact hb h
          · exact (ne_of_gt hsfpos) h
        · intro hr1
          exact absurd hr1 h1

-- ## No rational square root of a squarefree radical

theorem rat_sq_int {q : ℚ} {m : ℤ} (h : q * q = (m : ℚ)) :
    q.den = 1 ∧ q.num * q.num = m := by
  have hden : q.den * q.den = 1 := by
    have hd := congrArg Rat.den h
    rwa [Rat.mul_self_den, Rat.den_intCast] at hd
  have hd1 : q.den = 1 := by
    have hle : q.den ≤ 1 := Nat.le_of_dvd one_pos ⟨q.den, hden.symm⟩
    have hpos := q.pos
    omega
  refine ⟨hd1, ?_⟩
  have hn := congrArg Rat.num h
  rwa [Rat.mul_self_num, Rat.num_intCast] at hn

theorem no_rat_sq {r : ℤ} (hr : r ≠ 1) (hsq : Squarefree r) (q : ℚ) :
    q * q ≠ (r : ℚ) := by
  intro h
  obtain ⟨_, hn⟩ := rat_sq_int h
  have h2 : q.num * q.num ∣ r := hn ▸ dvd_rfl
  have hu := hsq q.num h2
  rw [Int.isUnit_iff_natAbs_eq] at hu
  rcases Int.natAbs_eq_iff.mp hu with h1 | h1 <;> rw [h1] at hn <;> omega

theorem conjProduct_zero_iff {x : ABSqrtC} (hx : x.Canonical) :
    x.conjugateProduct = 0 ↔ x = ⟨0, 0, 1⟩ := by
  obtain ⟨a, b, r⟩ := x
  obtain ⟨hr1, hsq, hiff⟩ := hx
  constructor
  · intro h
    unfold ABSqrtC.conjugateProduct at h
    dsimp only at h hiff ⊢
    by_cases hb : b = 0
    · have hrad : r = 1 := hiff.mp hb
      have ha : a = 0 := by
        subst hb
        have : a * a = 0 := by linarith [h]
        exact mul_self_eq_zero.mp this
      subst ha; subst hb; subst hrad; rfl
    · exfalso
      have hrne : r ≠ 1 := fun h1 => hb (hiff.mpr h1)
      apply no_rat_sq hrne hsq (a / b)
      field_simp
      linear_combination h
  · rintro h
    cases h
    unfold ABSqrtC.conjugateProduct
    norm_num

-- ## Value preservation and uniqueness of the canonical form

theorem make_sem {c : ℤ} (a b : ℚ) (hc : 0 < c ∨ b = 0) (v : ABSqrtC)
    (hv : ABSqrtC.make a b (c : ℚ) = .ok v) : v.sem = sem3 a b c := by
  by_cases hb : b = 0
  · subst hb
    rw [make_b0] at hv
    cases hv
    simp [ABSqrtC.sem, sem3]
  · have hc' : 0 < c := hc.resolve_right hb
    have hcq : (0:ℚ) < (c : ℚ) := by exact_mod_cast hc'
    obtain ⟨hpos, hdvd, hsq, hsfpos, hnsd⟩ := sf_int_spec c (by omega)
    have hsplit : Real.sqrt ((c : ℤ) : ℝ) =
        ((_get_square_factors (c : ℚ)).1 : ℝ) * Real.sqrt (((_get_square_factors (c : ℚ)).2 : ℤ) : ℝ) := by
      have hcast : ((c : ℤ) : ℝ) =
          ((_get_square_factors (c : ℚ)).1 : ℝ) ^ 2 * (((_get_square_factors (c : ℚ)).2 : ℤ) : ℝ) := by
        have := hsq
        have h2 : (((_get_square_factors (c : ℚ)).1 ^ 2 * ((_get_square_factors (c : ℚ)).2 : ℚ) : ℚ) : ℝ)
            = (((c : ℚ) : ℚ) : ℝ) := by exact_mod_cast congrArg (Rat.cast : ℚ → ℝ) this
        push_cast at h2 ⊢
        linarith
      rw [hcast, Real.sqrt_mul (sq_nonneg _), Real.sqrt_sq (by positivity)]
    rw [make_eq_of_pos a hb hcq] at hv
    by_cases h1 : (_get_square_factors (c:ℚ)).2 = 1
    · rw [if_pos h1] at hv
      cases hv
      rw [h1] at hsplit
      unfold ABSqrtC.sem sem3
      push_cast
      rw [hsplit]
      norm_num [Real.sqrt_one]
    · rw [if_neg h1] at hv
      cases hv
      unfold ABSqrtC.sem sem3
      push_cast
      rw [hsplit]
      ring

theorem sqrt_irr {r : ℤ} (hr1 : 1 ≤ r) (hr : r ≠ 1) (hsq : Squarefree r) (q : ℚ) :
    (q : ℝ) ≠ Real.sqrt (r : ℝ) := by
  intro h
  have h0 : (0:ℝ) ≤ (r : ℝ) := by exact_mod_cast (by omega : (0:ℤ) ≤ r)
  have h2 : (q : ℝ) * (q : ℝ) = (r : ℝ) := by
    rw [h]; exact Real.mul_self_sqrt h0
  have hq : q * q = (r : ℚ) := by exact_mod_cast h2
  exact no_rat_sq hr hsq q hq

theorem lin_indep {r : ℤ} (hr1 : 1 ≤ r) (hr : r ≠ 1) (hsq : Squarefree r) (p q : ℚ)
    (h : (p : ℝ) + (q : ℝ) * Real.sqrt (r : ℝ) = 0) : p = 0 ∧ q = 0 := by
  by_cases hq : q = 0
  · subst hq
    refine ⟨?_, rfl⟩
    push_cast at h
    have : (p : ℝ) = 0 := by linarith [h]
    exact_mod_cast this
  · exfalso
    have hqr : ((-p / q : ℚ) : ℝ) = Real.sqrt (r : ℝ) := by
      have hq' : ((q : ℚ) : ℝ) ≠ 0 := by exact_mod_cast hq
      push_cast
      field_simp
      linarith [h]
    exact sqrt_irr hr1 hr hsq (-p / q) hqr

theorem prod_sq_eq {r1 r2 : ℤ} (h1 : 0 < r1) (h2 : 0 < r2) (hs1 : Squarefree r1)
    (hs2 : Squarefree r2) {z : ℤ} (h : r1 * r2 = z * z) : r1 = r2 := by
  set g : ℤ := (Int.gcd r1 r2 : ℤ) with hgdef
  have hgpos : 0 < Int.gcd r1 r2 := Int.gcd_pos_of_ne_zero_left _ (by omega)
  have hgz : (0:ℤ) < g := by rw [hgdef]; exact_mod_cast hgpos
  have hdl : g ∣ r1 := Int.gcd_dvd_left
  have hdr : g ∣ r2 := Int.gcd_dvd_right
  obtain ⟨u, hu⟩ := hdl
  obtain ⟨v, hv⟩ := hdr
  have hcop : IsCoprime u v := by
    rw [Int.isCoprime_iff_gcd_eq_one]
    have := Int.gcd_div_gcd_div_gcd hgpos
    have hu' : r1 / g = u := by rw [hu, Int.mul_ediv_cancel_left _ (ne_of_gt hgz)]
    have hv' : r2 / g = v := by rw [hv, Int.mul_ediv_cancel_left _ (ne_of_gt hgz)]
    rwa [hu', hv'] at this
  -- `g ∣ z`, write `z = g * w`
  have hgz2 : g * g ∣ z * z := by
    refine ⟨u * v, ?_⟩
    have : r1 * r2 = g * g * (u * v) := by rw [hu, hv]; ring
    rw [← h, this]
  have hgdvdz : g ∣ z := by
    have hpow : g ^ 2 ∣ z ^ 2 := by
      have : g ^ 2 = g * g := sq g
      rw [this, sq]
      exact hgz2
    exact (Int.pow_dvd_pow_iff two_ne_zero).mp hpow
  obtain ⟨w, hw⟩ := hgdvdz
  have huv : u * v = w ^ 2 := by
    have hexp : g * g * (u * v) = g * g * (w ^ 2) := by
      have e1 : r1 * r2 = g * g * (u * v) := by rw [hu, hv]; ring
      have e2 : z * z = g * g * w ^ 2 := by rw [hw]; ring
      rw [← e1, h, e2]
    exact mul_left_cancel₀ (by positivity) hexp
  have hupos : 0 < u := by
    have hgu : 0 < g * u := hu ▸ h1
    nlinarith [hgz, hgu]
  have hvpos : 0 < v := by
    have hgv : 0 < g * v := hv ▸ h2
    nlinarith [hgz, hgv]
  have hu1 : u = 1 := by
    obtain ⟨u0, hu0⟩ := Int.sq_of_coprime hcop huv
    have hueq : u = u0 ^ 2 := by
      rcases hu0 with h' | h'
      · exact h'
      · exfalso; nlinarith [sq_nonneg u0]
    have husf : Squarefree u := hs1.squarefree_of_dvd ⟨g, by rw [hu]; ring⟩
    have : IsUnit u0 := husf u0 (by rw [hueq]; exact ⟨1, by ring⟩)
    rw [Int.isUnit_iff_natAbs_eq] at this
    have : u0 * u0 = 1 := by
      rcases Int.natAbs_eq_iff.mp this with h' | h' <;> rw [h'] <;> ring
    rw [hueq, sq, this]
  have hv1 : v = 1 := by
    obtain ⟨v0, hv0⟩ := Int.sq_of_coprime hcop.symm (by rw [mul_comm] at huv; exact huv)
    have hveq : v = v0 ^ 2 := by
      rcases hv0 with h' | h'
      · exact h'
      · exfalso; nlinarith [sq_nonneg v0]
    have hvsf : Squarefree v := hs2.squarefree_of_dvd ⟨g, by rw [hv]; ring⟩
    have : IsUnit v0 := hvsf v0 (by rw [hveq]; exact ⟨1, by ring⟩)
    rw [Int.isUnit_iff_natAbs_eq] at this
    have : v0 * v0 = 1 := by
      rcases Int.natAbs_eq_iff.mp this with h' | h' <;> rw [h'] <;> ring
    rw [hveq, sq, this]
  rw [hu, hv, hu1, hv1]

theorem canonical_unique {v w : ABSqrtC} (hv : v.Canonical) (hw : w.Canonical)
    (h : v.sem = w.sem) : v = w := by
  obtain ⟨a1, b1, r1⟩ := v
  obtain ⟨a2, b2, r2⟩ := w
  obtain ⟨h1r, h1sq, h1iff⟩ := hv
  obtain ⟨h2r, h2sq, h2iff⟩ := hw
  unfold ABSqrtC.sem sem3 at h
  dsimp only at h h1r h1sq h1iff h2r h2sq h2iff
  have h0r1 : (0:ℝ) ≤ ((r1:ℤ) : ℝ) := by exact_mod_cast (by omega : (0:ℤ) ≤ r1)
  have h0r2 : (0:ℝ) ≤ ((r2:ℤ) : ℝ) := by exact_mod_cast (by omega : (0:ℤ) ≤ r2)
  by_cases hr : r1 = r2
  · subst hr
    by_cases hr1' : r1 = 1
    · have hb1 : b1 = 0 := h1iff.mpr hr1'
      have hb2 : b2 = 0 := h2iff.mpr hr1'
      subst hb1; subst hb2; subst hr1'
      have : (a1:ℝ) = (a2:ℝ) := by
        push_cast at h
        linarith [h]
      have : a1 = a2 := by exact_mod_cast this
      rw [this]
    · have hz := lin_indep h1r hr1' h1sq (a1 - a2) (b1 - b2) (by push_cast; linarith [h])
      have ha : a1 = a2 := by have := hz.1; linarith [this]
      have hb : b1 = b2 := by have := hz.2; linarith [this]
      rw [ha, hb]
  · exfalso
    by_cases hb1 : b1 = 0
    · have hr1' : r1 = 1 := h1iff.mp hb1
      have hb2 : b2 ≠ 0 := fun h0 => hr (by rw [hr1', h2iff.mp h0])
      have hr2' : r2 ≠ 1 := fun h0 => hb2 (h2iff.mpr h0)
      have hz := lin_indep h2r hr2' h2sq (a2 - a1) b2 (by
        subst hr1'
        push_cast at h
        rw [Real.sqrt_one] at h
        push_cast
        have hb1' : ((b1:ℝ)) = 0 := by exact_mod_cast hb1
        linarith [h, hb1'])
      exact hb2 hz.2
    · by_cases hb2 : b2 = 0
      · have hr2' : r2 = 1 := h2iff.mp hb2
        have hr1' : r1 ≠ 1 := fun h0 => hr (by rw [h0, hr2'])
        have hz := lin_indep h1r hr1' h1sq (a1 - a2) b1 (by
          subst hr2'
          push_cast at h
          rw [Real.sqrt_one] at h
          push_cast
          have hb2' : ((b2:ℝ)) = 0 := by exact_mod_cast hb2
          linarith [h, hb2'])
        exact hb1 hz.2
      · -- both irrational parts present, different radicals
        have hr1' : r1 ≠ 1 := fun h0 => hb1 (h1iff.mpr h0)
        have hr2' : r2 ≠ 1 := fun h0 => hb2 (h2iff.mpr h0)
        have hEq : (b1:ℝ) * Real.sqrt ((r1:ℤ):ℝ) =
            ((a2 - a1 : ℚ) : ℝ) + (b2:ℝ) * Real.sqrt ((r2:ℤ):ℝ) := by
          push_cast
          linarith [h]
        have hsq2 : ((b1:ℝ))^2 * ((r1:ℤ):ℝ) =
            ((a2 - a1 : ℚ):ℝ)^2 + 2 * ((a2 - a1 : ℚ):ℝ) * (b2:ℝ) * Real.sqrt ((r2:ℤ):ℝ)
              + ((b2:ℝ))^2 * ((r2:ℤ):ℝ) := by
          have step : ((b1:ℝ) * Real.sqrt ((r1:ℤ):ℝ))^2 =
              (((a2 - a1 : ℚ):ℝ) + (b2:ℝ) * Real.sqrt ((r2:ℤ):ℝ))^2 := by rw [hEq]
          rw [mul_pow, Real.sq_sqrt h0r1] at step
          rw [step]
          rw [add_sq, mul_pow, Real.sq_sqrt h0r2]
          ring
        by_cases hd : a2 - a1 = 0
        · -- b1·√r1 = b2·√r2 forces r1·r2 to be a perfect square
          have hEq' : (b1:ℝ) * Real.sqrt ((r1:ℤ):ℝ) = (b2:ℝ) * Real.sqrt ((r2:ℤ):ℝ) := by
            have : ((a2 - a1 : ℚ):ℝ) = 0 := by exact_mod_cast hd
            rw [this, zero_add] at hEq
            exact hEq
          have hmul : (b1:ℝ) * ((r1:ℤ):ℝ) = (b2:ℝ) * Real.sqrt (((r2 * r1 : ℤ)):ℝ) := by
            have := congrArg (fun t => t * Real.sqrt ((r1:ℤ):ℝ)) hEq'
            dsimp only at this
            rw [mul_assoc, mul_assoc, Real.mul_self_sqrt h0r1, ← Real.sqrt_mul h0r2] at this
            rw [this]
            norm_num
          set q : ℚ := b1 * (r1 : ℚ) / b2 with hqdef
          have hq : (q : ℝ) = Real.sqrt (((r2 * r1 : ℤ)):ℝ) := by
            rw [hqdef]
            push_cast
            rw [eq_comm, eq_div_iff (by exact_mod_cast hb2)]
            push_cast at hmul
            linarith [hmul]
          have hqq : q * q = ((r2 * r1 : ℤ) : ℚ) := by
            have hrr : (0:ℝ) ≤ ((r2 * r1 : ℤ) : ℝ) := by
              push_cast
              nlinarith [h0r1, h0r2]
            have : (q:ℝ) * (q:ℝ) = ((r2 * r1 : ℤ) : ℝ) := by
              rw [hq]; exact Real.mul_self_sqrt hrr
            exact_mod_cast this
          obtain ⟨_, hz⟩ := rat_sq_int hqq
          exact hr (prod_sq_eq (by omega) (by omega) h2sq h1sq hz.symm).symm
        · -- a nonzero rational offset would make √r2 rational
          have hb2r : ((2 * (a2 - a1) * b2 : ℚ) : ℝ) ≠ 0 := by
            push_cast
            intro h0
            have : ((a2:ℝ) - a1) * b2 = 0 := by linarith [h0]
            rcases mul_eq_zero.mp this with h' | h'
            · apply hd
              have : (a2:ℝ) - a1 = 0 := h'
              have : ((a2 - a1 : ℚ) : ℝ) = 0 := by push_cast; linarith [this]
              exact_mod_cast this
            · exact hb2 (by exact_mod_cast h')
          apply sqrt_irr h2r hr2' h2sq
            ((b1 * b1 * r1 - (a2 - a1) * (a2 - a1) - b2 * b2 * r2) / (2 * (a2 - a1) * b2))
          rw [eq_comm, Rat.cast_div, eq_div_iff hb2r]
          push_cast
          push_cast at hsq2
          nlinarith [hsq2]

-- ## Claim C1

/-- Claim C1 (counterexample): the universally-quantified claim fails on
the code.  The constructor calls `ABSqrtC(3, 5, 0)` and `ABSqrtC(3, 0, 1)`
denote the same algebraic number (`3 + 5·√0 = 3 = 3 + 0·√1`), yet the
code folds `√0` to `√1` and stores the canonical triple `(8, 0, 1)` for
the first call and `(3, 0, 1)` for the second, and the two values do not
compare equal. -/
theorem c1_counterexample :
    sem3 3 5 0 = sem3 3 0 1 ∧
    ABSqrtC.make 3 5 0 = .ok ⟨8, 0, 1⟩ ∧
    ABSqrtC.make 3 0 1 = .ok ⟨3, 0, 1⟩ ∧
    ABSqrtC.beq ⟨8, 0, 1⟩ ⟨3, 0, 1⟩ = false := by
  refine ⟨?_, ?_, ?_, ?_⟩
  · unfold sem3
    rw [show ((0:ℤ):ℝ) = 0 by norm_num, show ((1:ℤ):ℝ) = 1 by norm_num,
      Real.sqrt_zero, Real.sqrt_one]
    norm_num
  · rw [show ((0:ℚ)) = ((0:ℤ):ℚ) by norm_num, show ((0:ℤ):ℚ) = 0 by norm_num,
      make_c0 3 (by norm_num)]
    norm_num
  · exact make_b0 3 1
  · norm_num [ABSqrtC.beq]

/-- Claim C1 (amended): restricted to constructor calls whose radicand is
positive (or whose factor is zero) — excluding only the `√0` slip shown in
`c1_counterexample` — the claim holds: any two constructor calls with
integer radicands that denote the same algebraic number produce
componentwise equal canonical triples, values that compare equal under
`__eq__`, and (hash being a deterministic function of the stored value,
`hash(self._value)`) equal hash values. -/
theorem c1_equal_value_equal_triple (a b a' b' : ℚ) (c c' : ℤ)
    (hc0 : 0 ≤ c) (hc0' : 0 ≤ c')
    (hc : 0 < c ∨ b = 0) (hc' : 0 < c' ∨ b' = 0)
    (hsem : sem3 a b c = sem3 a' b' c')
    (v w : ABSqrtC) (hv : ABSqrtC.make a b (c : ℚ) = .ok v)
    (hw : ABSqrtC.make a' b' (c' : ℚ) = .ok w) :
    ABSqrtC.make a b (c : ℚ) = ABSqrtC.make a' b' (c' : ℚ) ∧
    v.add = w.add ∧ v.factor = w.factor ∧ v.radical = w.radical ∧
    v.beq w = true ∧ ∀ hashf : ABSqrtC → ℤ, hashf v = hashf w := by
  have hvw : v = w := by
    apply canonical_unique (make_canonical a b hc0 v hv) (make_canonical a' b' hc0' w hw)
    rw [make_sem a b hc v hv, make_sem a' b' hc' w hw]
    exact hsem
  subst hvw
  refine ⟨by rw [hv, hw], rfl, rfl, rfl, ?_, fun _ => rfl⟩
  unfold ABSqrtC.beq
  simp

/-- Claim C1 (witness): the claim's own instance — `ABSqrtC(0, 5, 3)` and
`ABSqrtC(0, 1, 75)` (`75 = 5²·3`) denote the same number `5·√3`, and the
amended theorem yields equal triples, equality and equal hashes. -/
theorem c1_witness :
    (⟨0, 5, 3⟩ : ABSqrtC).beq ⟨0, 5, 3⟩ = true ∧
    ABSqrtC.make 0 5 ((3:ℤ) : ℚ) = ABSqrtC.make 0 1 ((75:ℤ) : ℚ) := by
  have hv : ABSqrtC.make 0 5 ((3:ℤ) : ℚ) = .ok ⟨0, 5, 3⟩ := by
    norm_num [ABSqrtC.make, _get_square_factors, sfLoop_step, sfLoop_stop, divOut_step,
      divOut_stop]
  have hw : ABSqrtC.make 0 1 ((75:ℤ) : ℚ) = .ok ⟨0, 5, 3⟩ := by
    norm_num [ABSqrtC.make, _get_square_factors, sfLoop_step, sfLoop_stop, divOut_step,
      divOut_stop]
  have hsem : sem3 0 5 3 = sem3 0 1 75 := by
    unfold sem3
    rw [show ((75:ℤ):ℝ) = 5^2 * 3 by norm_num, Real.sqrt_mul (by positivity),
      Real.sqrt_sq (by norm_num : (0:ℝ) ≤ 5)]
    push_cast
    ring
  have h := c1_equal_value_equal_triple 0 5 0 1 3 75 (by norm_num) (by norm_num)
    (Or.inl (by norm_num)) (Or.inl (by norm_num)) hsem ⟨0, 5, 3⟩ ⟨0, 5, 3⟩ hv hw
  exact ⟨h.2.2.2.2.1, h.1⟩

-- ## Claims C3 and C4

/-- Claim C3 (code bug): at the failing input `ABSqrtC(3, 5, 0)` the code
replaces the zero radicand by `1` (lines 44–45) and then folds the factor
into the rational part as if `√0` were `√1`, storing `(8, 0, 1)` — the
value `8` — although `3 + 5·√0 = 3`; the claim (and the mathematics)
require `(3, 0, 1)`. -/
theorem c3_zero_radicand_behavior :
    ABSqrtC.make 3 5 0 = .ok ⟨8, 0, 1⟩ ∧
    ABSqrtC.make 3 5 0 ≠ .ok ⟨3, 0, 1⟩ ∧
    sem3 3 5 0 = 3 ∧ (⟨8, 0, 1⟩ : ABSqrtC).sem = 8 := by
  have h : ABSqrtC.make 3 5 0 = .ok ⟨8, 0, 1⟩ := by
    rw [make_c0 3 (by norm_num)]
    norm_num
  refine ⟨h, ?_, ?_, ?_⟩
  · rw [h]
    intro hh
    rw [Except.ok.injEq, ABSqrtC.mk.injEq] at hh
    norm_num at hh
  · unfold sem3
    rw [show ((0:ℤ):ℝ) = 0 by norm_num, Real.sqrt_zero]
    norm_num
  · unfold ABSqrtC.sem sem3
    rw [show ((1:ℤ):ℝ) = 1 by norm_num, Real.sqrt_one]
    norm_num

/-- Claim C4 (counterexample): `ABSqrtC(3, 0, -5)` — negative radicand
with factor `0` — does not fail: line 40 replaces the radicand by `1`
before the negativity check ever sees it, and the call returns the value
`3` with canonical triple `(3, 0, 1)`. -/
theorem c4_counterexample :
    ABSqrtC.make 3 0 (-5) = .ok ⟨3, 0, 1⟩ ∧
    ∀ e : PyError, ABSqrtC.make 3 0 (-5) ≠ .error e := by
  refine ⟨make_b0 3 (-5), fun e h => ?_⟩
  rw [make_b0 3 (-5)] at h
  cases h

/-- Claim C4 (amended): the three-argument construction fails with the
`InvalidRadical` error exactly when the radicand is negative AND the
factor argument is nonzero; when the factor is zero the radicand is
ignored entirely and construction succeeds with the triple `(a, 0, 1)`. -/
theorem c4_negative_radicand (a b c : ℚ) :
    (c < 0 ∧ b ≠ 0 → ABSqrtC.make a b c = .error (.invalidRadical c)) ∧
    (b = 0 → ABSqrtC.make a b c = .ok ⟨a, 0, 1⟩) := by
  constructor
  · rintro ⟨hc, hb⟩
    exact make_neg a hb hc
  · rintro rfl
    exact make_b0 a c

/-- Claim C4 (witness): the amended theorem applied at `(0, 1, -1)`
(failure) and `(3, 0, -5)` (silent success). -/
theorem c4_witness :
    ABSqrtC.make 0 1 (-1) = .error (.invalidRadical (-1)) ∧
    ABSqrtC.make 3 0 (-5) = .ok ⟨3, 0, 1⟩ :=
  ⟨(c4_negative_radicand 0 1 (-1)).1 ⟨by norm_num, by norm_num⟩,
    (c4_negative_radicand 3 0 (-5)).2 rfl⟩

-- ## Common-radical case analysis

theorem gcr_same {x y : ABSqrtC} (h : x.radical = y.radical) :
    x.getCommonRadical y = .ok x.radical := by
  unfold ABSqrtC.getCommonRadical
  rw [if_pos h]

theorem gcr_left_one {x y : ABSqrtC} (h : x.radical = 1) :
    x.getCommonRadical y = .ok y.radical := by
  unfold ABSqrtC.getCommonRadical
  by_cases heq : x.radical = y.radical
  · rw [if_pos heq, heq]
  · rw [if_neg heq, if_pos h]

theorem gcr_right_one {x y : ABSqrtC} (h : y.radical = 1) :
    x.getCommonRadical y = .ok x.radical := by
  unfold ABSqrtC.getCommonRadical
  by_cases heq : x.radical = y.radical
  · rw [if_pos heq]
  · by_cases hx1 : x.radical = 1
    · rw [if_neg heq, if_pos hx1, h, hx1]
    · rw [if_neg heq, if_neg hx1, if_pos h]

theorem gcr_incompatible {x y : ABSqrtC} (hx : x.radical ≠ 1) (hy : y.radical ≠ 1)
    (hne : x.radical ≠ y.radical) :
    x.getCommonRadical y = .error (.incompatibleRadical x.radical y.radical) := by
  unfold ABSqrtC.getCommonRadical
  rw [if_neg hne, if_neg hx, if_neg hy]

theorem gcr_ok_cases {x y : ABSqrtC} {r : ℤ} (h : x.getCommonRadical y = .ok r) :
    r = x.radical ∨ r = y.radical := by
  unfold ABSqrtC.getCommonRadical at h
  split_ifs at h <;> cases h
  · exact Or.inl rfl
  · exact Or.inr rfl
  · exact Or.inl rfl

theorem gcr_ok_of_compatible {x y : ABSqrtC}
    (h : x.radical = y.radical ∨ x.radical = 1 ∨ y.radical = 1) :
    ∃ r, x.getCommonRadical y = .ok r := by
  rcases h with h | h | h
  · exact ⟨_, gcr_same h⟩
  · exact ⟨_, gcr_left_one h⟩
  · exact ⟨_, gcr_right_one h⟩

-- ## Claim C2: the squarefree invariant

theorem make_noSquareDiv {c : ℤ} (a b : ℚ) (hc : 0 ≤ c) (v : ABSqrtC)
    (hv : ABSqrtC.make a b (c : ℚ) = .ok v) : NoSquareDiv v.radical :=
  noSquareDiv_of_squarefree (make_canonical a b hc v hv).2.1

/-- Claim C2: the radical of every value built by the constructor from an
integer radicand `c ≥ 0`, and of every value produced by the arithmetic
operations on values satisfying the radical invariant, is `1` or
squarefree — no integer `k > 1` has `k²` dividing it.  (`1` itself
satisfies the same condition vacuously, so the whole claim is the
`NoSquareDiv` condition.) -/
theorem c2_squarefree_invariant :
    (∀ (a b : ℚ) (c : ℤ), 0 ≤ c → ∀ v, ABSqrtC.make a b (c : ℚ) = .ok v →
      NoSquareDiv v.radical) ∧
    (∀ x y v : ABSqrtC, 1 ≤ x.radical → 1 ≤ y.radical → x.addOp y = .ok v → NoSquareDiv v.radical) ∧
    (∀ x y v : ABSqrtC, 1 ≤ x.radical → 1 ≤ y.radical → x.subOp y = .ok v → NoSquareDiv v.radical) ∧
    (∀ x y v : ABSqrtC, 1 ≤ x.radical → 1 ≤ y.radical → x.mulOp y = .ok v → NoSquareDiv v.radical) ∧
    (∀ x y v : ABSqrtC, 1 ≤ x.radical → 1 ≤ y.radical → x.divOp y = .ok v → NoSquareDiv v.radical) ∧
    (∀ (x : ABSqrtC) (n : ℕ) (v : ABSqrtC), 1 ≤ x.radical → x.powOp n = .ok v →
      NoSquareDiv v.radical) ∧
    (∀ (x : ABSqrtC) (v : ABSqrtC), 1 ≤ x.radical → x.negOp = .ok v → NoSquareDiv v.radical) ∧
    (∀ (x : ABSqrtC) (v : ABSqrtC), 1 ≤ x.radical → x.conjugate = .ok v →
      NoSquareDiv v.radical) ∧
    (∀ (x : ABSqrtC) (v : ABSqrtC), 1 ≤ x.radical → x.inverse = .ok v →
      NoSquareDiv v.radical) := by
  have hbind : ∀ (x y : ABSqrtC) (f : ℤ → Except PyError ABSqrtC) (v : ABSqrtC),
      1 ≤ x.radical → 1 ≤ y.radical →
      (x.getCommonRadical y >>= f) = .ok v →
      (∀ r, 1 ≤ r → f r = .ok v → NoSquareDiv v.radical) → NoSquareDiv v.radical := by
    intro x y f v hx hy h hf
    cases hgc : x.getCommonRadical y with
    | error e => rw [hgc, except_bind_err] at h; cases h
    | ok r =>
      rw [hgc, except_bind_ok] at h
      have hr : 1 ≤ r := by rcases gcr_ok_cases hgc with h' | h' <;> omega
      exact hf r hr h
  refine ⟨fun a b c hc v hv => make_noSquareDiv a b hc v hv, ?_, ?_, ?_, ?_, ?_, ?_, ?_, ?_⟩
  · intro x y v hx hy h
    exact hbind x y _ v hx hy h (fun r hr hf => make_noSquareDiv _ _ (by omega) v hf)
  · intro x y v hx hy h
    exact hbind x y _ v hx hy h (fun r hr hf => make_noSquareDiv _ _ (by omega) v hf)
  · intro x y v hx hy h
    exact hbind x y _ v hx hy h (fun r hr hf => make_noSquareDiv _ _ (by omega) v hf)
  · intro x y v hx hy h
    refine hbind x y _ v hx hy h (fun r hr hf => ?_)
    by_cases hcp : y.conjugateProduct = 0
    · rw [if_pos hcp] at hf; cases hf
    · rw [if_neg hcp] at hf
      exact make_noSquareDiv _ _ (by omega) v hf
  · intro x n v hx h
    exact make_noSquareDiv _ _ (by omega) v h
  · intro x v hx h
    exact make_noSquareDiv _ _ (by omega) v h
  · intro x v hx h
    exact make_noSquareDiv _ _ (by omega) v h
  · intro x v hx h
    unfold ABSqrtC.inverse at h
    by_cases hcp : x.conjugateProduct = 0
    · rw [if_pos hcp] at h; cases h
    · rw [if_neg hcp] at h
      exact make_noSquareDiv _ _ (by omega) v h

/-- Claim C2 (witness): the constructor applied at `(3, -5, 98)` — the
radical `2` of the result carries no square divisor — and the product
`(3+5√7)·(2+10√7)`, through the full operation pipeline. -/
theorem c2_witness :
    NoSquareDiv ((⟨3, -35, 2⟩ : ABSqrtC).radical) ∧
    NoSquareDiv ((⟨-344, 20, 7⟩ : ABSqrtC).radical) := by
  constructor
  · refine c2_squarefree_invariant.1 3 (-5) 98 (by norm_num) _ ?_
    norm_num [ABSqrtC.make, _get_square_factors, sfLoop_step, sfLoop_stop, divOut_step,
      divOut_stop]
  · refine c2_squarefree_invariant.2.2.2.1 ⟨3, -5, 7⟩ ⟨2, 10, 7⟩ _ (by norm_num) (by norm_num) ?_
    norm_num [ABSqrtC.mulOp, ABSqrtC.getCommonRadical, except_bind_ok, ABSqrtC.make,
      _get_square_factors, sfLoop_step, sfLoop_stop, divOut_step, divOut_stop]

-- ## Claim C5: radical compatibility gating

/-- Claim C5 (counterexample): with both radicals the sentinel `1` —
certainly compatible — the division `1 / 0` does not succeed but fails
with `DivisionByZero`, so "the operation succeeds" as universally stated
is false for `/`. -/
theorem c5_counterexample :
    ABSqrtC.divOp ⟨1, 0, 1⟩ ⟨0, 0, 1⟩ = .error .divisionByZero := by
  norm_num [ABSqrtC.divOp, ABSqrtC.getCommonRadical, ABSqrtC.conjugateProduct,
    except_bind_ok]

/-- Claim C5 (amended): if both radicals differ from `1` and from each
other, every binary operation fails with `IncompatibleRadical` reporting
both radicands.  If either radical is `1` or they are equal, the common
radical is the other operand's radical (respectively the shared one), and
addition, subtraction and multiplication succeed; division succeeds
provided additionally the divisor's conjugate product is nonzero
(otherwise it fails with `DivisionByZero`, see C6). -/
theorem c5_radical_compatibility (x y : ABSqrtC) :
    (x.radical ≠ 1 → y.radical ≠ 1 → x.radical ≠ y.radical →
      x.addOp y = .error (.incompatibleRadical x.radical y.radical) ∧
      x.subOp y = .error (.incompatibleRadical x.radical y.radical) ∧
      x.mulOp y = .error (.incompatibleRadical x.radical y.radical) ∧
      x.divOp y = .error (.incompatibleRadical x.radical y.radical)) ∧
    (x.radical = y.radical → x.getCommonRadical y = .ok x.radical) ∧
    (x.radical = 1 → x.getCommonRadical y = .ok y.radical) ∧
    (y.radical = 1 → x.getCommonRadical y = .ok x.radical) ∧
    (1 ≤ x.radical → 1 ≤ y.radical →
      (x.radical = y.radical ∨ x.radical = 1 ∨ y.radical = 1) →
      (∃ v, x.addOp y = .ok v) ∧ (∃ v, x.subOp y = .ok v) ∧ (∃ v, x.mulOp y = .ok v) ∧
      (y.conjugateProduct ≠ 0 → ∃ v, x.divOp y = .ok v)) := by
  refine ⟨?_, gcr_same, gcr_left_one, gcr_right_one, ?_⟩
  · intro hx hy hne
    have herr := gcr_incompatible hx hy hne
    refine ⟨?_, ?_, ?_, ?_⟩ <;>
      · simp only [ABSqrtC.addOp, ABSqrtC.subOp, ABSqrtC.mulOp, ABSqrtC.divOp]
        rw [herr, except_bind_err]
  · intro hx hy hcompat
    obtain ⟨r, hr⟩ := gcr_ok_of_compatible hcompat
    have hr1 : 1 ≤ r := by rcases gcr_ok_cases hr with h' | h' <;> omega
    have hrq : (0:ℚ) ≤ (r : ℚ) := by exact_mod_cast (by omega : (0:ℤ) ≤ r)
    refine ⟨?_, ?_, ?_, ?_⟩
    · unfold ABSqrtC.addOp
      rw [hr, except_bind_ok]
      exact make_ok _ _ hrq
    · unfold ABSqrtC.subOp
      rw [hr, except_bind_ok]
      exact make_ok _ _ hrq
    · unfold ABSqrtC.mulOp
      rw [hr, except_bind_ok]
      exact make_ok _ _ hrq
    · intro hcp
      unfold ABSqrtC.divOp
      rw [hr, except_bind_ok, if_neg hcp]
      exact make_ok _ _ hrq

/-- Claim C5 (witness): `(3+5√7) + (3+5√11)` fails with
`IncompatibleRadical 7 11`, while `(3+5√7) + (4+√7)` succeeds. -/
theorem c5_witness :
    ABSqrtC.addOp ⟨3, 5, 7⟩ ⟨3, 5, 11⟩ = .error (.incompatibleRadical 7 11) ∧
    (∃ v, ABSqrtC.addOp ⟨3, 5, 7⟩ ⟨4, 1, 7⟩ = .ok v) :=
  ⟨((c5_radical_compatibility ⟨3, 5, 7⟩ ⟨3, 5, 11⟩).1 (by norm_num) (by norm_num)
      (by norm_num)).1,
    ((c5_radical_compatibility ⟨3, 5, 7⟩ ⟨4, 1, 7⟩).2.2.2.2 (by norm_num) (by norm_num)
      (Or.inl rfl)).1⟩

-- ## Multiplying a freshly constructed value: the composition lemma

theorem make_self {x : ABSqrtC} (hx : x.Canonical) :
    ABSqrtC.make x.add x.factor (x.radical : ℚ) = .ok x := by
  obtain ⟨a, b, r⟩ := x
  obtain ⟨h1, h2, h3⟩ := hx
  dsimp only at h1 h2 h3 ⊢
  by_cases hb : b = 0
  · have hr : r = 1 := h3.mp hb
    subst hb; subst hr
    exact make_b0 a 1
  · have hr : r ≠ 1 := fun h' => hb (h3.mpr h')
    exact make_id a hb h1 hr h2

theorem make_args_congr {a a' b b' c c' : ℚ} (ha : a = a') (hb : b = b') (hc : c = c') :
    ABSqrtC.make a b c = ABSqrtC.make a' b' c' := by rw [ha, hb, hc]

theorem mul_make (A B : ℚ) (r : ℤ) (y : ABSqrtC) (hr1 : 1 ≤ r) (hsq : Squarefree r)
    (hyr : y.radical = r ∨ y.radical = 1) (hy1 : y.radical = 1 → y.factor = 0) :
    (ABSqrtC.make A B (r : ℚ) >>= fun v => v.mulOp y) =
      ABSqrtC.make (A * y.add + B * y.factor * r) (A * y.factor + B * y.add) (r : ℚ) := by
  by_cases hB : B = 0
  · subst hB
    rw [make_b0, except_bind_ok]
    unfold ABSqrtC.mulOp
    rw [gcr_left_one rfl, except_bind_ok]
    dsimp only
    rcases hyr with hyr | hyr
    · rw [hyr]
    · have hyf : y.factor = 0 := hy1 hyr
      rw [hyr, hyf]
      have hL : ABSqrtC.make (A * y.add + 0 * 0 * ((1:ℤ) : ℚ)) (A * 0 + 0 * y.add) ((1:ℤ) : ℚ)
          = .ok ⟨A * y.add, 0, 1⟩ :=
        (make_args_congr (by ring) (by ring) rfl).trans (make_b0 (A * y.add) _)
      have hR : ABSqrtC.make (A * y.add + 0 * 0 * (r : ℚ)) (A * 0 + 0 * y.add) (r : ℚ)
          = .ok ⟨A * y.add, 0, 1⟩ :=
        (make_args_congr (by ring) (by ring) rfl).trans (make_b0 (A * y.add) _)
      rw [hL, hR]
  · by_cases hr : r = 1
    · subst hr
      have hyrad : y.radical = 1 := by rcases hyr with h | h <;> exact h
      have hyf : y.factor = 0 := hy1 hyrad
      rw [show ((1:ℤ):ℚ) = 1 by norm_num, make_r1 A hB, except_bind_ok]
      unfold ABSqrtC.mulOp
      rw [gcr_left_one rfl, except_bind_ok, hyrad]
      dsimp only
      rw [hyf]
      have hL : ABSqrtC.make ((A + B) * y.add + 0 * 0 * ((1:ℤ) : ℚ)) ((A + B) * 0 + 0 * y.add)
          ((1:ℤ) : ℚ) = .ok ⟨(A + B) * y.add, 0, 1⟩ :=
        (make_args_congr (by ring) (by ring) rfl).trans (make_b0 ((A + B) * y.add) _)
      rw [hL]
      have hR : ABSqrtC.make (A * y.add + B * 0 * (1 : ℚ)) (A * 0 + B * y.add) (1 : ℚ)
          = ABSqrtC.make (A * y.add) (B * y.add) 1 :=
        make_args_congr (by ring) (by ring) rfl
      rw [hR]
      by_cases hBy : B * y.add = 0
      · have hya : y.add = 0 := by
          rcases mul_eq_zero.mp hBy with h' | h'
          · exact absurd h' hB
          · exact h'
        rw [hBy, make_b0, hya]
        norm_num
      · rw [make_r1 _ hBy]
        rw [Except.ok.injEq, ABSqrtC.mk.injEq]
        refine ⟨by ring, rfl, rfl⟩
    · rw [make_id A hB hr1 hr hsq, except_bind_ok]
      unfold ABSqrtC.mulOp
      rcases hyr with hyr | hyr
      · rw [gcr_same (show r = y.radical from hyr.symm), except_bind_ok]
      · rw [gcr_right_one hyr, except_bind_ok]

theorem gcr_shape_left {x y : ABSqrtC} {r : ℤ} (h : x.getCommonRadical y = .ok r) :
    x.radical = r ∨ x.radical = 1 := by
  unfold ABSqrtC.getCommonRadical at h
  split_ifs at h with h1 h2 h3 <;> cases h
  · exact Or.inl rfl
  · exact Or.inr h2
  · exact Or.inl rfl

theorem gcr_shape_right {x y : ABSqrtC} {r : ℤ} (h : x.getCommonRadical y = .ok r) :
    y.radical = r ∨ y.radical = 1 := by
  unfold ABSqrtC.getCommonRadical at h
  split_ifs at h with h1 h2 h3 <;> cases h
  · exact Or.inl h1.symm
  · exact Or.inl rfl
  · exact Or.inr h3

theorem make_self_compat {x : ABSqrtC} {r : ℤ} (hx : x.Canonical)
    (hcomp : x.radical = r ∨ x.radical = 1) :
    ABSqrtC.make x.add x.factor (r : ℚ) = .ok x := by
  by_cases hb : x.factor = 0
  · have hrad : x.radical = 1 := hx.2.2.mp hb
    obtain ⟨a, b, rx⟩ := x
    dsimp only at hb hrad ⊢
    subst hb; subst hrad
    exact make_b0 a (r : ℚ)
  · have hrad : x.radical = r := by
      rcases hcomp with h | h
      · exact h
      · exact absurd h (fun h' => hb (hx.2.2.mpr h))
    rw [← hrad]
    exact make_self hx

theorem squarefree_of_sf_eval {z : ℤ} (hz : 1 ≤ z) (h : _get_square_factors (z : ℚ) = (1, z)) :
    Squarefree z := by
  have hspec := (sf_int_spec z hz).2.2.2.2
  rw [h] at hspec
  exact squarefree_of_noSquareDiv (by omega) hspec

-- ## Claim C6: division by zero

/-- Claim C6: for canonical operands with a compatible common radical,
`x / y` fails with `DivisionByZero` exactly when the divisor's conjugate
product `add² − factor²·radical` is zero, equivalently exactly when `y`
is the zero value `(0, 0, 1)`; the same holds for `y.inverse`; and for a
nonzero divisor the division succeeds with a canonical quotient `v`
satisfying `v * y = x` exactly. -/
theorem c6_division_by_zero (x y : ABSqrtC) (hx : x.Canonical) (hy : y.Canonical)
    {r : ℤ} (hr : x.getCommonRadical y = .ok r) :
    (x.divOp y = .error .divisionByZero ↔ y.conjugateProduct = 0) ∧
    (x.divOp y = .error .divisionByZero ↔ y = ⟨0, 0, 1⟩) ∧
    (y.inverse = .error .divisionByZero ↔ y = ⟨0, 0, 1⟩) ∧
    (y ≠ ⟨0, 0, 1⟩ → ∃ v, x.divOp y = .ok v ∧ v.Canonical ∧ v.mulOp y = .ok x) := by
  have hr1 : 1 ≤ r := by
    rcases gcr_ok_cases hr with h' | h'
    · have := hx.1; omega
    · have := hy.1; omega
  have hrq : (0:ℚ) ≤ (r : ℚ) := by exact_mod_cast (by omega : (0:ℤ) ≤ r)
  have hrsq : Squarefree r := by
    rcases gcr_ok_cases hr with h' | h'
    · exact h' ▸ hx.2.1
    · exact h' ▸ hy.2.1
  have hdiv : ∀ hcp : y.conjugateProduct ≠ 0,
      x.divOp y = ABSqrtC.make
        ((x.add * y.add - x.factor * y.factor * r) / y.conjugateProduct)
        ((x.factor * y.add - x.add * y.factor) / y.conjugateProduct) (r : ℚ) := by
    intro hcp
    unfold ABSqrtC.divOp
    rw [hr, except_bind_ok, if_neg hcp]
  have herr : x.divOp y = .error .divisionByZero ↔ y.conjugateProduct = 0 := by
    constructor
    · intro h
      by_contra hcp
      rw [hdiv hcp] at h
      obtain ⟨v, hv⟩ := make_ok ((x.add * y.add - x.factor * y.factor * r) / y.conjugateProduct)
        ((x.factor * y.add - x.add * y.factor) / y.conjugateProduct) hrq
      rw [hv] at h
      cases h
    · intro hcp
      unfold ABSqrtC.divOp
      rw [hr, except_bind_ok, if_pos hcp]
  have hinv : y.inverse = .error .divisionByZero ↔ y.conjugateProduct = 0 := by
    constructor
    · intro h
      by_contra hcp
      unfold ABSqrtC.inverse at h
      rw [if_neg hcp] at h
      have h0c : (0:ℚ) ≤ ((y.radical : ℤ) : ℚ) := by
        exact_mod_cast (show (0:ℤ) ≤ y.radical by have := hy.1; omega)
      obtain ⟨v, hv⟩ := make_ok (y.add / y.conjugateProduct)
        (-y.factor / y.conjugateProduct) h0c
      rw [hv] at h
      cases h
    · intro hcp
      unfold ABSqrtC.inverse
      rw [if_pos hcp]
  refine ⟨herr, herr.trans (conjProduct_zero_iff hy), hinv.trans (conjProduct_zero_iff hy), ?_⟩
  intro hyz
  have hcp : y.conjugateProduct ≠ 0 := fun h => hyz ((conjProduct_zero_iff hy).mp h)
  obtain ⟨v, hv⟩ := make_ok ((x.add * y.add - x.factor * y.factor * r) / y.conjugateProduct)
    ((x.factor * y.add - x.add * y.factor) / y.conjugateProduct) hrq
  refine ⟨v, by rw [hdiv hcp]; exact hv, make_canonical _ _ (by omega) v hv, ?_⟩
  have hcomp := mul_make ((x.add * y.add - x.factor * y.factor * r) / y.conjugateProduct)
    ((x.factor * y.add - x.add * y.factor) / y.conjugateProduct) r y hr1 hrsq
    (gcr_shape_right hr) (fun h1 => hy.2.2.mpr h1)
  rw [hv, except_bind_ok] at hcomp
  rw [hcomp]
  have hcpdef : y.conjugateProduct = y.add * y.add - y.factor * y.factor * (y.radical : ℚ) := rfl
  have e1 : (x.add * y.add - x.factor * y.factor * r) / y.conjugateProduct * y.add +
      (x.factor * y.add - x.add * y.factor) / y.conjugateProduct * y.factor * r = x.add := by
    rcases gcr_shape_right hr with hyr | hyr
    · rw [hcpdef, hyr] at hcp ⊢
      field_simp
      ring
    · have hyf : y.factor = 0 := hy.2.2.mpr hyr
      rw [hcpdef, hyf] at hcp ⊢
      have hya : y.add ≠ 0 := by
        intro h0
        apply hcp
        rw [h0]
        ring
      field_simp
      ring
  have e2 : (x.add * y.add - x.factor * y.factor * r) / y.conjugateProduct * y.factor +
      (x.factor * y.add - x.add * y.factor) / y.conjugateProduct * y.add = x.factor := by
    rcases gcr_shape_right hr with hyr | hyr
    · rw [hcpdef, hyr] at hcp ⊢
      field_simp
      ring
    · have hyf : y.factor = 0 := hy.2.2.mpr hyr
      rw [hcpdef, hyf] at hcp ⊢
      have hya : y.add ≠ 0 := by
        intro h0
        apply hcp
        rw [h0]
        ring
      field_simp
      ring
  rw [make_args_congr e1 e2 rfl]
  exact make_self_compat hx (gcr_shape_left hr)

/-- Claim C6 (witness): dividing `2` by the zero value fails with
`DivisionByZero`; dividing `2` by `3 - 5·√7` succeeds with a canonical
quotient that multiplies back to `2` exactly. -/
theorem c6_witness :
    ABSqrtC.divOp ⟨2, 0, 1⟩ ⟨0, 0, 1⟩ = .error .divisionByZero ∧
    (∃ v, ABSqrtC.divOp ⟨2, 0, 1⟩ ⟨3, -5, 7⟩ = .ok v ∧ v.Canonical ∧
      v.mulOp ⟨3, -5, 7⟩ = .ok ⟨2, 0, 1⟩) := by
  have hx : (⟨2, 0, 1⟩ : ABSqrtC).Canonical := ⟨le_rfl, squarefree_one, by norm_num⟩
  have hy0 : (⟨0, 0, 1⟩ : ABSqrtC).Canonical := ⟨le_rfl, squarefree_one, by norm_num⟩
  have hsq7 : Squarefree (7 : ℤ) := by
    refine squarefree_of_sf_eval (by norm_num) ?_
    norm_num [_get_square_factors, sfLoop_step, sfLoop_stop, divOut_step, divOut_stop]
  have hy : (⟨3, -5, 7⟩ : ABSqrtC).Canonical := ⟨by norm_num, hsq7, by norm_num⟩
  constructor
  · exact (c6_division_by_zero ⟨2, 0, 1⟩ ⟨0, 0, 1⟩ hx hy0 (gcr_same rfl)).2.1.mpr rfl
  · refine (c6_division_by_zero ⟨2, 0, 1⟩ ⟨3, -5, 7⟩ hx hy (gcr_left_one rfl)).2.2.2 ?_
    intro h
    rw [ABSqrtC.mk.injEq] at h
    norm_num at h

-- ## Claim C7: the conjugate/inverse identity

theorem gcr_comm_ok {x y : ABSqrtC} {r : ℤ} (h : x.getCommonRadical y = .ok r) :
    y.getCommonRadical x = .ok r := by
  unfold ABSqrtC.getCommonRadical at h ⊢
  split_ifs at h with h1 h2 h3 <;> cases h
  · rw [if_pos h1.symm, h1]
  · rw [if_neg (fun hh => h1 hh.symm), if_neg, if_pos h2]
    intro hy1
    exact h1 (h2.trans hy1.symm)
  · rw [if_neg (fun hh => h1 hh.symm), if_pos h3]

theorem mulOp_comm (x y : ABSqrtC) {r : ℤ} (hr : x.getCommonRadical y = .ok r) :
    x.mulOp y = y.mulOp x := by
  unfold ABSqrtC.mulOp
  rw [hr, gcr_comm_ok hr, except_bind_ok, except_bind_ok]
  exact make_args_congr (by ring) (by ring) rfl

theorem make_radical_shape {r : ℤ} {a b : ℚ} {v : ABSqrtC} (hr1 : 1 ≤ r) (hsq : Squarefree r)
    (hv : ABSqrtC.make a b (r : ℚ) = .ok v) : v.radical = r ∨ v.radical = 1 := by
  by_cases hb : b = 0
  · subst hb
    rw [make_b0] at hv
    cases hv
    exact Or.inr rfl
  · by_cases hone : r = 1
    · subst hone
      rw [show ((1:ℤ):ℚ) = 1 by norm_num, make_r1 a hb] at hv
      cases hv
      exact Or.inr rfl
    · rw [make_id a hb hr1 hone hsq] at hv
      cases hv
      exact Or.inl rfl

/-- Claim C7: for every canonical nonzero value `x`, the product
`x * x.inverse` is exactly the value `1` with canonical triple
`(1, 0, 1)` — pure rational arithmetic, no tolerance. -/
theorem c7_inverse_identity (x : ABSqrtC) (hx : x.Canonical)
    (hnz : ¬(x.add = 0 ∧ x.factor = 0)) :
    ∃ v, x.inverse = .ok v ∧ x.mulOp v = .ok ⟨1, 0, 1⟩ := by
  have hcp : x.conjugateProduct ≠ 0 := by
    intro h
    have := (conjProduct_zero_iff hx).mp h
    rw [this] at hnz
    exact hnz ⟨rfl, rfl⟩
  have h0c : (0:ℚ) ≤ ((x.radical : ℤ) : ℚ) := by
    exact_mod_cast (show (0:ℤ) ≤ x.radical by have := hx.1; omega)
  obtain ⟨v, hv⟩ := make_ok (x.add / x.conjugateProduct) (-x.factor / x.conjugateProduct) h0c
  have hivdef : x.inverse = .ok v := by
    unfold ABSqrtC.inverse
    rw [if_neg hcp]
    exact hv
  refine ⟨v, hivdef, ?_⟩
  have hcompose := mul_make (x.add / x.conjugateProduct) (-x.factor / x.conjugateProduct)
    x.radical x hx.1 hx.2.1 (Or.inl rfl) (fun h1 => hx.2.2.mpr h1)
  rw [hv, except_bind_ok] at hcompose
  have hvshape := make_radical_shape hx.1 hx.2.1 hv
  have hgvx : v.getCommonRadical x = .ok x.radical := by
    rcases hvshape with h' | h'
    · rw [gcr_same h']
      rw [h']
    · exact gcr_left_one h'
  rw [mulOp_comm x v (gcr_comm_ok hgvx), hcompose]
  have hcpdef : x.conjugateProduct = x.add * x.add - x.factor * x.factor * (x.radical : ℚ) := rfl
  have e1 : x.add / x.conjugateProduct * x.add +
      -x.factor / x.conjugateProduct * x.factor * (x.radical : ℚ) = 1 := by
    rw [hcpdef] at hcp ⊢
    field_simp
    ring
  have e2 : x.add / x.conjugateProduct * x.factor +
      -x.factor / x.conjugateProduct * x.add = 0 := by
    rw [hcpdef] at hcp ⊢
    field_simp
    ring
  rw [make_args_congr e1 e2 rfl]
  exact make_b0 1 _

/-- Claim C7 (witness): `x = 1 + √2` has inverse `-1 + √2` and
`x * x.inverse = 1`. -/
theorem c7_witness :
    ∃ v, (⟨1, 1, 2⟩ : ABSqrtC).inverse = .ok v ∧
      ABSqrtC.mulOp ⟨1, 1, 2⟩ v = .ok ⟨1, 0, 1⟩ := by
  have hsq2 : Squarefree (2 : ℤ) := by
    refine squarefree_of_sf_eval (by norm_num) ?_
    norm_num [_get_square_factors, sfLoop_step, sfLoop_stop, divOut_step, divOut_stop]
  exact c7_inverse_identity ⟨1, 1, 2⟩ ⟨by norm_num, hsq2, by norm_num⟩ (by norm_num)

-- ## Claim C8: `__pow__` agrees with repeated multiplication

theorem powAddSum_merged (a b : ℚ) (c : ℤ) (o : ℕ) :
    powAddSum a b c o = ∑ k ∈ Finset.range (o / 2 + 1),
      (o.choose (2 * k) : ℚ) * a ^ (o - 2 * k) * b ^ (2 * k) * (c : ℚ) ^ k := by
  unfold powAddSum
  rcases Nat.even_or_odd o with he | ho
  · have h1 : o % 2 = 0 := by
      obtain ⟨t, ht⟩ := he
      omega
    have h2 : (o + 1) / 2 = o / 2 := by omega
    rw [if_pos h1, h2, Finset.sum_range_succ]
    have h3 : 2 * (o / 2) = o := by omega
    rw [h3, Nat.choose_self, Nat.sub_self]
    norm_num
  · have h1 : ¬(o % 2 = 0) := by
      obtain ⟨t, ht⟩ := ho
      omega
    have h2 : (o + 1) / 2 = o / 2 + 1 := by
      rcases ho with ⟨t, ht⟩
      omega
    rw [if_neg h1, h2, add_zero]

theorem powFactorSum_rec (a b : ℚ) (c : ℤ) (o : ℕ) :
    powFactorSum a b c (o + 1) =
      b * (∑ k ∈ Finset.range (o / 2 + 1),
          (o.choose (2 * k) : ℚ) * a ^ (o - 2 * k) * b ^ (2 * k) * (c : ℚ) ^ k) +
        a * powFactorSum a b c o := by
  unfold powFactorSum
  have hrange : (o + 1 + 1) / 2 = o / 2 + 1 := by omega
  rw [hrange]
  have hsplit : ∀ k ∈ Finset.range (o / 2 + 1),
      (((o + 1).choose (2 * k + 1) : ℚ) * a ^ (o + 1 - (2 * k + 1)) * b ^ (2 * k + 1) *
          (c : ℚ) ^ k)
        = (b * ((o.choose (2 * k) : ℚ) * a ^ (o - 2 * k) * b ^ (2 * k) * (c : ℚ) ^ k)) +
          ((o.choose (2 * k + 1) : ℚ) * a ^ (o + 1 - (2 * k + 1)) * b ^ (2 * k + 1) *
            (c : ℚ) ^ k) := by
    intro k hk
    rw [Nat.choose_succ_succ o (2 * k)]
    have hexp : o + 1 - (2 * k + 1) = o - 2 * k := by omega
    rw [hexp]
    push_cast
    ring
  rw [Finset.sum_congr rfl hsplit, Finset.sum_add_distrib]
  congr 1
  · rw [Finset.mul_sum]
  · rw [Finset.mul_sum]
    rcases Nat.even_or_odd o with he | ho
    · have h2 : (o + 1) / 2 = o / 2 := by
        obtain ⟨t, ht⟩ := he
        omega
      rw [h2, Finset.sum_range_succ]
      have hz : o.choose (2 * (o / 2) + 1) = 0 := by
        apply Nat.choose_eq_zero_of_lt
        obtain ⟨t, ht⟩ := he
        omega
      rw [hz]
      norm_num
      apply Finset.sum_congr rfl
      intro k hk
      rw [Finset.mem_range] at hk
      have hb : 2 * k + 1 ≤ o := by
        obtain ⟨t, ht⟩ := he
        omega
      have hexp : o + 1 - (2 * k + 1) = (o - (2 * k + 1)) + 1 := by omega
      rw [hexp, pow_succ]
      ring
    · have h2 : (o + 1) / 2 = o / 2 + 1 := by
        obtain ⟨t, ht⟩ := ho
        omega
      rw [h2]
      apply Finset.sum_congr rfl
      intro k hk
      rw [Finset.mem_range] at hk
      have hb : 2 * k + 1 ≤ o := by
        obtain ⟨t, ht⟩ := ho
        omega
      have hexp : o + 1 - (2 * k + 1) = (o - (2 * k + 1)) + 1 := by omega
      rw [hexp, pow_succ]
      ring

theorem powAddSum_rec (a b : ℚ) (c : ℤ) (o : ℕ) :
    powAddSum a b c (o + 1) = a * powAddSum a b c o + b * (c : ℚ) * powFactorSum a b c o := by
  rw [powAddSum_merged, powAddSum_merged]
  unfold powFactorSum
  rw [Finset.sum_range_succ']
  conv_rhs => rw [Finset.mul_sum, Finset.sum_range_succ']
  have hsplit : ∀ k ∈ Finset.range ((o + 1) / 2),
      (((o + 1).choose (2 * (k + 1)) : ℚ) * a ^ (o + 1 - 2 * (k + 1)) * b ^ (2 * (k + 1)) *
          (c : ℚ) ^ (k + 1))
        = (b * (c : ℚ) * ((o.choose (2 * k + 1) : ℚ) * a ^ (o - (2 * k + 1)) * b ^ (2 * k + 1) *
            (c : ℚ) ^ k)) +
          ((o.choose (2 * k + 2) : ℚ) * a ^ (o + 1 - (2 * k + 2)) * b ^ (2 * k + 2) *
            (c : ℚ) ^ (k + 1)) := by
    intro k hk
    have hp : (o + 1).choose (2 * (k + 1)) = o.choose (2 * k + 1) + o.choose (2 * k + 2) := by
      rw [show 2 * (k + 1) = 2 * k + 1 + 1 by ring]
      exact Nat.choose_succ_succ o (2 * k + 1)
    rw [hp]
    have hexp1 : o + 1 - 2 * (k + 1) = o - (2 * k + 1) := by omega
    have hexp2 : o + 1 - (2 * k + 2) = o - (2 * k + 1) := by omega
    rw [hexp1, hexp2]
    push_cast
    ring
  rw [Finset.sum_congr rfl hsplit, Finset.sum_add_distrib]
  have h1 : (∑ k ∈ Finset.range ((o + 1) / 2),
      b * (c : ℚ) * ((o.choose (2 * k + 1) : ℚ) * a ^ (o - (2 * k + 1)) * b ^ (2 * k + 1) *
        (c : ℚ) ^ k))
      = b * (c : ℚ) * ∑ k ∈ Finset.range ((o + 1) / 2),
        ((o.choose (2 * k + 1) : ℚ) * a ^ (o - (2 * k + 1)) * b ^ (2 * k + 1) * (c : ℚ) ^ k) := by
    rw [Finset.mul_sum]
  have h2 : (∑ k ∈ Finset.range ((o + 1) / 2),
      ((o.choose (2 * k + 2) : ℚ) * a ^ (o + 1 - (2 * k + 2)) * b ^ (2 * k + 2) *
        (c : ℚ) ^ (k + 1)))
      = ∑ k ∈ Finset.range (o / 2),
        a * ((o.choose (2 * (k + 1)) : ℚ) * a ^ (o - 2 * (k + 1)) * b ^ (2 * (k + 1)) *
          (c : ℚ) ^ (k + 1)) := by
    have hterm : ∀ k ∈ Finset.range (o / 2),
        ((o.choose (2 * k + 2) : ℚ) * a ^ (o + 1 - (2 * k + 2)) * b ^ (2 * k + 2) *
          (c : ℚ) ^ (k + 1))
          = a * ((o.choose (2 * (k + 1)) : ℚ) * a ^ (o - 2 * (k + 1)) * b ^ (2 * (k + 1)) *
            (c : ℚ) ^ (k + 1)) := by
      intro k hk
      rw [Finset.mem_range] at hk
      have hb : 2 * k + 2 ≤ o := by omega
      have hexp : o + 1 - (2 * k + 2) = (o - 2 * (k + 1)) + 1 := by omega
      rw [hexp, pow_succ, show 2 * (k + 1) = 2 * k + 2 by ring]
      ring
    rcases Nat.even_or_odd o with he | ho
    · have hr : (o + 1) / 2 = o / 2 := by
        obtain ⟨t, ht⟩ := he
        omega
      rw [hr]
      exact Finset.sum_congr rfl hterm
    · have hr : (o + 1) / 2 = o / 2 + 1 := by
        obtain ⟨t, ht⟩ := ho
        omega
      rw [hr, Finset.sum_range_succ]
      have hz : o.choose (2 * (o / 2) + 2) = 0 := by
        apply Nat.choose_eq_zero_of_lt
        obtain ⟨t, ht⟩ := ho
        omega
      rw [hz]
      norm_num
      exact Finset.sum_congr rfl hterm
  rw [h1, h2]
  simp only [Nat.choose_zero_right, Nat.mul_zero, Nat.sub_zero, pow_zero, Nat.cast_one]
  ring

theorem powAddSum_zero (a b : ℚ) (c : ℤ) : powAddSum a b c 0 = 1 := by
  unfold powAddSum
  norm_num

theorem powFactorSum_zero (a b : ℚ) (c : ℤ) : powFactorSum a b c 0 = 0 := by
  unfold powFactorSum
  norm_num

theorem pow_eq_iterMul_of_canonical (x : ABSqrtC) (hx : x.Canonical) :
    (∀ n : ℕ, x.powOp n = x.iterMul n) ∧ x.powOp 0 = .ok ⟨1, 0, 1⟩ := by
  have hbase : x.powOp 0 = .ok ⟨1, 0, 1⟩ := by
    unfold ABSqrtC.powOp
    rw [powAddSum_zero, powFactorSum_zero]
    by_cases h1 : (1:ℚ) = 0
    · norm_num at h1
    · rw [make_b0]
  refine ⟨?_, hbase⟩
  intro n
  induction n with
  | zero =>
    rw [hbase]
    rfl
  | succ n ih =>
    show x.powOp (n + 1) = x.iterMul n >>= fun v => v.mulOp x
    rw [← ih]
    unfold ABSqrtC.powOp
    rw [mul_make (powAddSum x.add x.factor x.radical n) (powFactorSum x.add x.factor x.radical n)
      x.radical x hx.1 hx.2.1 (Or.inl rfl) (fun h1 => hx.2.2.mpr h1)]
    have e1 : powAddSum x.add x.factor x.radical (n + 1) =
        powAddSum x.add x.factor x.radical n * x.add +
          powFactorSum x.add x.factor x.radical n * x.factor * (x.radical : ℚ) := by
      rw [powAddSum_rec]
      ring
    have e2 : powFactorSum x.add x.factor x.radical (n + 1) =
        powAddSum x.add x.factor x.radical n * x.factor +
          powFactorSum x.add x.factor x.radical n * x.add := by
      rw [powFactorSum_rec, ← powAddSum_merged]
      ring
    exact make_args_congr e1 e2 rfl

/-- The claim's concrete samples, evaluated through the binomial
`__pow__` embedding: `(-1 + √2)² = 3 - 2√2` and
`(-1 + √2)¹⁰ = 3363 - 2378·√2`. -/
theorem pow_samples :
    ABSqrtC.powOp ⟨-1, 1, 2⟩ 2 = .ok ⟨3, -2, 2⟩ ∧
    ABSqrtC.powOp ⟨-1, 1, 2⟩ 10 = .ok ⟨3363, -2378, 2⟩ := by
  constructor
  · norm_num [ABSqrtC.powOp, powAddSum, powFactorSum, Finset.sum_range_succ,
      Finset.sum_range_zero, ABSqrtC.make, _get_square_factors, sfLoop_step, sfLoop_stop,
      divOut_step, divOut_stop, Nat.choose]
  · norm_num [ABSqrtC.powOp, powAddSum, powFactorSum, Finset.sum_range_succ,
      Finset.sum_range_zero, ABSqrtC.make, _get_square_factors, sfLoop_step, sfLoop_stop,
      divOut_step, divOut_stop, Nat.choose]

/-- Claim C8: for every canonical value `x` and every `n ≥ 0`, `x ** n`
equals the `n`-fold repeated product of `x` with itself, with `x ** 0`
the value `1` (canonical triple `(1, 0, 1)`); in particular
`ABSqrtC(-1,1,2) ** 2 == ABSqrtC(3,-2,2)` and
`ABSqrtC(-1,1,2) ** 10 == ABSqrtC(3363,-2378,2)`. -/
theorem c8_pow_repeated_mul :
    (∀ x : ABSqrtC, x.Canonical →
      (∀ n : ℕ, x.powOp n = x.iterMul n) ∧ x.powOp 0 = .ok ⟨1, 0, 1⟩) ∧
    ABSqrtC.powOp ⟨-1, 1, 2⟩ 2 = .ok ⟨3, -2, 2⟩ ∧
    ABSqrtC.powOp ⟨-1, 1, 2⟩ 10 = .ok ⟨3363, -2378, 2⟩ :=
  ⟨pow_eq_iterMul_of_canonical, pow_samples.1, pow_samples.2⟩

/-- Claim C8 (witness): the general part applied at the canonical value
`-1 + √2`, with the canonicality hypothesis discharged concretely. -/
theorem c8_witness :
    ABSqrtC.powOp ⟨-1, 1, 2⟩ 2 = ABSqrtC.iterMul ⟨-1, 1, 2⟩ 2 ∧
    ABSqrtC.powOp ⟨-1, 1, 2⟩ 0 = .ok ⟨1, 0, 1⟩ := by
  have hsq2 : Squarefree (2 : ℤ) := by
    refine squarefree_of_sf_eval (by norm_num) ?_
    norm_num [_get_square_factors, sfLoop_step, sfLoop_stop, divOut_step, divOut_stop]
  have hx : (⟨-1, 1, 2⟩ : ABSqrtC).Canonical := ⟨by norm_num, hsq2, by norm_num⟩
  exact ⟨(c8_pow_repeated_mul.1 ⟨-1, 1, 2⟩ hx).1 2, (c8_pow_repeated_mul.1 ⟨-1, 1, 2⟩ hx).2⟩

-- ## Claim C9: text rendering

/-- Claim C9 (counterexample): a non-integer rational part is rendered in
Python `Fraction` style `p/q` with no spaces — `str(ABSqrtC(1/2, 2, 2))`
is `"1/2 + 2 * √2"`, not the claimed `"1 / 2 + 2 * √2"` (the spaced form
belongs to the older revision's `_BeauFraction`). -/
theorem c9_counterexample :
    ABSqrtC.make (1/2) 2 ((2:ℤ) : ℚ) = .ok ⟨1/2, 2, 2⟩ ∧
    ABSqrtC.str ⟨1/2, 2, 2⟩ = "1/2 + 2 * √2" ∧
    ABSqrtC.str ⟨1/2, 2, 2⟩ ≠ "1 / 2 + 2 * √2" := by
  refine ⟨?_, ?_, ?_⟩
  · norm_num [ABSqrtC.make, _get_square_factors, sfLoop_step, sfLoop_stop, divOut_step,
      divOut_stop]
  · norm_num [ABSqrtC.str, pyFracStr]
    decide
  · norm_num [ABSqrtC.str, pyFracStr]
    decide

/-- Claim C9 (amended): the rendering follows the claimed grammar except
that rational parts are rendered in Python `Fraction` form — `p` when the
denominator is `1`, else `p/q` with the sign on `p` and no spaces.  The
factor-zero case renders the rational part alone; otherwise the `add`
term (omitted exactly when zero) is followed by a spaced sign taken from
the factor, the absolute factor with `" * "` unless it equals `1`, and
`√` with the radical.  The claim's three concrete samples hold. -/
theorem c9_str_grammar :
    (∀ q : ℚ, (q.den = 1 → pyFracStr q = toString q.num) ∧
      (q.den ≠ 1 → pyFracStr q = toString q.num ++ "/" ++ toString q.den)) ∧
    (∀ x : ABSqrtC, x.factor = 0 → x.str = pyFracStr x.add) ∧
    (∀ x : ABSqrtC, x.factor ≠ 0 → x.str =
      (if x.add ≠ 0 then pyFracStr x.add ++ (if 0 < x.factor then " + " else " - ")
        else (if 0 < x.factor then "" else "-")) ++
      (if |x.factor| ≠ 1 then pyFracStr |x.factor| ++ " * " else "") ++
      "√" ++ toString x.radical) ∧
    ABSqrtC.make 1 2 ((2:ℤ) : ℚ) = .ok ⟨1, 2, 2⟩ ∧
    ABSqrtC.str ⟨1, 2, 2⟩ = "1 + 2 * √2" ∧
    ABSqrtC.make (-1) (-2) ((2:ℤ) : ℚ) = .ok ⟨-1, -2, 2⟩ ∧
    ABSqrtC.str ⟨-1, -2, 2⟩ = "-1 - 2 * √2" ∧
    ABSqrtC.make 1 0 ((1:ℤ) : ℚ) = .ok ⟨1, 0, 1⟩ ∧
    ABSqrtC.str ⟨1, 0, 1⟩ = "1" := by
  refine ⟨?_, ?_, ?_, ?_, ?_, ?_, ?_, ?_, ?_⟩
  · intro q
    constructor
    · intro h
      unfold pyFracStr
      rw [if_pos h]
    · intro h
      unfold pyFracStr
      rw [if_neg h]
  · intro x h
    unfold ABSqrtC.str
    rw [if_pos h]
  · intro x h
    unfold ABSqrtC.str
    rw [if_neg h]
  · norm_num [ABSqrtC.make, _get_square_factors, sfLoop_step, sfLoop_stop, divOut_step,
      divOut_stop]
  · norm_num [ABSqrtC.str, pyFracStr]
    decide
  · norm_num [ABSqrtC.make, _get_square_factors, sfLoop_step, sfLoop_stop, divOut_step,
      divOut_stop]
  · norm_num [ABSqrtC.str, pyFracStr]
    decide
  · exact make_b0 1 _
  · norm_num [ABSqrtC.str, pyFracStr]
    decide

/-- Claim C9 (witness): the grammar theorem applied to the concrete value
`1 + 2·√2` — factor nonzero, positive, absolute value not `1`. -/
theorem c9_witness :
    ABSqrtC.str ⟨1, 2, 2⟩ =
      (if (1:ℚ) ≠ 0 then pyFracStr 1 ++ (if (0:ℚ) < 2 then " + " else " - ")
        else (if (0:ℚ) < 2 then "" else "-")) ++
      (if |(2:ℚ)| ≠ 1 then pyFracStr |(2:ℚ)| ++ " * " else "") ++
      "√" ++ toString (2:ℤ) :=
  c9_str_grammar.2.2.1 ⟨1, 2, 2⟩ (by norm_num)

-- ## Claim C10: the two revisions of `_get_square_factors`

/-- Claim C10 (counterexample): at `n = 4` the revisions disagree.  The
older one iterates `i` over `range(2, int(4 ** 0.25)) = range(2, 1)`,
which is empty, and returns `(1, 4)`; the mature one extracts the square
and returns `(2, 1)`. -/
theorem c10_counterexample :
    old_get_square_factors 4 = (1, 4) ∧
    _get_square_factors ((4:ℤ) : ℚ) = (2, 1) ∧
    (((old_get_square_factors 4).1 : ℚ), (old_get_square_factors 4).2) ≠
      _get_square_factors ((4:ℤ) : ℚ) := by
  have hold : old_get_square_factors 4 = (1, 4) := by
    unfold old_get_square_factors
    rw [show ((4:ℤ).toNat) = 4 from rfl]
    norm_num
  have hnew : _get_square_factors ((4:ℤ) : ℚ) = (2, 1) := by
    norm_num [_get_square_factors, sfLoop_step, sfLoop_stop, divOut_step, divOut_stop]
  refine ⟨hold, hnew, ?_⟩
  rw [hold, hnew]
  intro h
  rw [Prod.mk.injEq] at h
  norm_num at h

theorem old_fixed_of_squarefree {z : ℤ} (hsq : Squarefree z) :
    old_get_square_factors z = (1, z) := by
  unfold old_get_square_factors
  have hgen : ∀ L : List ℕ, (∀ i ∈ L, 2 ≤ i) →
      L.foldl (fun (st : ℤ × ℤ) (i : ℕ) =>
        if ((i : ℤ) * i) ∣ st.2 then (st.1 * i, st.2 / ((i : ℤ) * i)) else st) (1, z)
        = (1, z) := by
    intro L
    induction L with
    | nil => intro _; rfl
    | cons i rest ih =>
      intro hmem
      have hi : 2 ≤ i := hmem i (List.mem_cons_self i rest)
      have hnd : ¬ ((i : ℤ) * i) ∣ z := by
        intro hdvd
        have := hsq (i : ℤ) hdvd
        rw [Int.isUnit_iff_natAbs_eq] at this
        omega
      rw [List.foldl_cons, if_neg hnd]
      exact ih (fun j hj => hmem j (List.mem_cons_of_mem i hj))
  apply hgen
  intro i hi
  rw [List.mem_range'] at hi
  obtain ⟨k, _, hk⟩ := hi
  omega

/-- Claim C10 (amended): the two revisions of `_get_square_factors` agree
on every squarefree `n ≥ 1` (both returning `(1, n)`), but not on general
integer radicands: the older revision's loop bound `int(n ** 0.25)` stops
at the fourth root and it divides only once per candidate, so it
under-extracts — e.g. at `n = 4` it returns `(1, 4)` while the mature
revision returns `(2, 1)`. -/
theorem c10_squarefree_agreement (z : ℤ) (_hz : 1 ≤ z) (hsq : Squarefree z) :
    (((old_get_square_factors z).1 : ℚ), (old_get_square_factors z).2) =
      _get_square_factors ((z : ℤ) : ℚ) := by
  rw [old_fixed_of_squarefree hsq, sf_canonical hsq]
  norm_num

/-- Claim C10 (witness): the agreement at the squarefree input `n = 6`. -/
theorem c10_witness :
    (((old_get_square_factors 6).1 : ℚ), (old_get_square_factors 6).2) =
      _get_square_factors ((6:ℤ) : ℚ) := by
  have hsq6 : Squarefree (6 : ℤ) := by
    refine squarefree_of_sf_eval (by norm_num) ?_
    norm_num [_get_square_factors, sfLoop_step, sfLoop_stop, divOut_step, divOut_stop]
  exact c10_squarefree_agreement 6 (by norm_num) hsq6
